import Mathlib

/-!
# Verification of the numpipe execution scheduler

Shallow embedding, in Lean 4, of the scheduling core of the `numpipe`
repository (files `numpipe/numpipe.py`, `numpipe/execution.py`,
`numpipe/parameters.py`, `numflow/h5cache.py`), together with theorems
settling the stated properties of the scheduler.

Modelling conventions:
* Python dicts whose values matter are association lists `List (String × _)`
  (first binding wins on lookup, as in `dict`); dicts used as ordered sets
  are `List String` built with `insertUnique` (insertion order, no
  duplicates, as for `dict` keys).
* The filesystem is a list of names of existing target files (blocks own
  their target 1:1, so a block name stands for its target's filepath).
* Exceptions raised by user functions and async-result readiness are
  oracles (`raises : String → Bool`, `sched : Nat → String → Bool`).
* Python `while` loops that can diverge are given fuel and return
  `Option`/a default; theorems about them take the hypothesis that the
  loop drained.
-/

namespace Numpipe

/-- `block` from `numpipe/execution.py` (lines 77-99): dependency names,
children (reverse edges, populated by the resolver), and the `complete`
flag, which starts `False`.  The constructor always initialises
`dependencies` to a list (`[]` then extended by `depends`), so the
`dependencies is None` branch of `ready_to_run` is unreachable and the
field is modelled as a plain list. The deferred function and the target
filepath are kept outside the structure (behaviour is an oracle, the
filepath is the block's name). -/
structure Block where
  dependencies : List String
  children : List String
  complete : Bool
  deriving Repr, DecidableEq

/-- The scheduler's block registry `self.blocks` (a Python dict). -/
abbrev Reg := List (String × Block)

/-- Insert a key into a dict-as-ordered-set: no-op if present, else
appended (Python `dict.update` / `d[k] = v` key order). -/
def insertUnique (l : List String) (x : String) : List String :=
  if x ∈ l then l else l ++ [x]

/-- Set `complete := true` on a block value. -/
def markComplete (b : Block) : Block :=
  { b with complete := true }

/-- `self.blocks[name].complete = True` (mutation of one dict entry). -/
def setComplete (blocks : Reg) (name : String) : Reg :=
  blocks.map (fun p => if p.1 = name then (p.1, markComplete p.2) else p)

/-- `scheduler.ready_to_run` (numpipe.py lines 289-297): a block is ready
iff every name in its dependency list maps to a registered block whose
`complete` flag is set.  (A dependency name missing from the registry
would raise `KeyError` in Python; it is modelled as "not ready", and the
theorems that need it assume well-formed registries.) -/
def ready_to_run (blocks : Reg) (b : Block) : Bool :=
  b.dependencies.all (fun D => ((blocks.lookup D).map Block.complete).getD false)

/-- Readiness of a block given by name (`blocks_to_execute[name]` then
`ready_to_run`). -/
def readyName (blocks : Reg) (n : String) : Bool :=
  match blocks.lookup n with
  | some b => ready_to_run blocks b
  | none => false

/-! ## The bounded-parallel dispatch loop (numpipe.py lines 216-258) -/

/-- State of the `while remaining or results` pool loop in
`scheduler.run`.  `results` holds in-flight submissions together with
whether their execution raises (`result.get()` re-raises the worker's
exception).  `submitLog` records, for each submission, the registry at
the moment of submission; `collected` records the blocks whose results
were collected; `disk` is the set of existing target files (a successful
execution writes its block's target). -/
structure PoolState where
  blocks : Reg
  remaining : List String
  results : List (String × Bool)
  numExceptions : Nat
  submitLog : List (String × Reg)
  collected : List String
  disk : List String
  deriving Repr, DecidableEq

/-- Submission phase (numpipe.py lines 223-233): every remaining block
whose readiness predicate holds is submitted to the pool
(`pool.apply_async(execute_block, ...)`) and removed from `remaining`.
`ready_to_run` reads `self.blocks`, which is not mutated during this
phase, so the phase is a filter against the pre-state.  A submitted
block's execution writes its target iff it does not raise
(`writes` is the per-block write outcome; for plain blocks
`writes n = !raises n`, streaming blocks may write partially even when
raising). -/
def submitPhase (raises writes : String → Bool) (s : PoolState) : PoolState :=
  let subs := s.remaining.filter (fun n => readyName s.blocks n)
  { s with
    remaining := s.remaining.filter (fun n => ¬ readyName s.blocks n)
    results := s.results ++ subs.map (fun n => (n, raises n))
    submitLog := s.submitLog ++ subs.map (fun n => (n, s.blocks))
    disk := subs.foldl (fun d n => if writes n then insertUnique d n else d) s.disk }

/-- Collection phase (numpipe.py lines 235-248): every in-flight result
that is ready (`result.ready()`, an oracle `rdy`) is collected;
`result.get()` re-raising increments `num_exceptions` and is logged; in
both cases `self.blocks[name].complete = True` is executed and the entry
leaves `results`. -/
def collectPhase (rdy : String → Bool) (s : PoolState) : PoolState :=
  let done := s.results.filter (fun p => rdy p.1)
  { s with
    results := s.results.filter (fun p => ¬ rdy p.1)
    numExceptions := s.numExceptions + (done.filter (fun p => p.2)).length
    blocks := done.foldl (fun bs p => setComplete bs p.1) s.blocks
    collected := s.collected ++ done.map (fun p => p.1) }

/-- The pool loop `while remaining or results` (numpipe.py line 222),
with fuel (the Python loop can spin forever when a readiness oracle
never fires); `t` is the iteration counter feeding the readiness
oracle. Returns the drained state, or `none` if the fuel runs out. -/
def runPool (raises writes : String → Bool) (sched : Nat → String → Bool) :
    Nat → Nat → PoolState → Option PoolState
  | 0, _, s => if s.remaining.isEmpty ∧ s.results.isEmpty then some s else none
  | fuel+1, t, s =>
    if s.remaining.isEmpty ∧ s.results.isEmpty then some s
    else runPool raises writes sched fuel (t+1)
      (collectPhase (sched t) (submitPhase raises writes s))

/-! ## The synchronous debug loop (numpipe.py lines 197-215) -/

/-- One pass of the debug loop's inner `for name in remaining`.  Ready
blocks are executed inline (`execute_block_debug`), so `complete` flags
set earlier in the same pass are visible to later readiness checks.  An
exception from `execute_block_debug` is re-raised and propagates out of
`scheduler.run` (the raising block is neither marked complete nor
removed from `remaining`, and the pass stops).  Returns
(registry, names to delete, execution log) and whether the pass
finished without an exception; the log pairs each executed name with
the registry at the moment execution started. -/
def debugPassAux (raises : String → Bool) :
    List String → Reg → List String → List (String × Reg) →
    (Reg × List String × List (String × Reg)) × Bool
  | [], blocks, toDel, log => ((blocks, toDel, log), true)
  | n :: rest, blocks, toDel, log =>
    if readyName blocks n then
      if raises n then ((blocks, toDel, log ++ [(n, blocks)]), false)
      else debugPassAux raises rest (setComplete blocks n) (toDel ++ [n]) (log ++ [(n, blocks)])
    else debugPassAux raises rest blocks toDel log

/-- State of the debug loop: registry, not-yet-executed names, and the
log of executions (name, registry at execution time). -/
structure DebugState where
  blocks : Reg
  remaining : List String
  execLog : List (String × Reg)
  deriving Repr, DecidableEq

/-- The debug loop `while remaining` (numpipe.py line 201), with fuel.
Returns the final state and `true`, or the state at the moment an
exception propagated and `false`; `none` if the fuel runs out (the
Python loop spins forever when no remaining block ever becomes
ready). -/
def runDebug (raises : String → Bool) : Nat → DebugState → Option (DebugState × Bool)
  | 0, s => if s.remaining.isEmpty then some (s, true) else none
  | fuel+1, s =>
    if s.remaining.isEmpty then some (s, true)
    else
      match debugPassAux raises s.remaining s.blocks [] [] with
      | (st, true) =>
        runDebug raises fuel
          { blocks := st.1
            remaining := s.remaining.filter (fun n => ¬ n ∈ st.2.1)
            execLog := s.execLog ++ st.2.2 }
      | (st, false) =>
        some ({ blocks := st.1, remaining := s.remaining, execLog := s.execLog ++ st.2.2 }, false)

/-! ## Dependency resolution (numpipe.py lines 597-637) -/

/-- `self.instances`: instance-family base name → member block names. -/
abbrev Instances := List (String × List String)

/-- Family expansion of one dependency list
(`resolve_dependencies_down`, lines 598-603): iterating over a copy of
the list, every dependency that names an instance family is removed
(`list.remove`, first occurrence) and the family's members are appended
(`list.extend`). -/
def expandDeps (instances : Instances) (deps : List String) : List String :=
  deps.foldl (fun l D =>
    match instances.lookup D with
    | some mems => l.erase D ++ mems
    | none => l) deps

/-- Apply `expandDeps` to every block of the registry. -/
def expandRegistry (instances : Instances) (blocks : Reg) : Reg :=
  blocks.map (fun p => (p.1, { p.2 with dependencies := expandDeps instances p.2.dependencies }))

/-- `self.blocks[D].children.append(label)` guarded by
`label not in children` (lines 605-608).  A missing parent (Python
`KeyError`) is a no-op here; theorems that need it assume the
dependency is registered. -/
def addChild (blocks : Reg) (parent child : String) : Reg :=
  blocks.map (fun p =>
    if p.1 = parent then
      (p.1, if child ∈ p.2.children then p.2
            else { p.2 with children := p.2.children ++ [child] })
    else p)

/-- Register every block as a child of each of its dependencies
(lines 605-608).  Dependencies are not mutated in this phase, so the
iteration runs over a snapshot of (label, dependencies) pairs. -/
def registerChildren (blocks : Reg) : Reg :=
  (blocks.map (fun p => (p.1, p.2.dependencies))).foldl
    (fun bs p => p.2.foldl (fun bs D => addChild bs D p.1) bs) blocks

/-- The `new_blocks` dict of one downward-closure iteration: all
children of the frontier, first-insertion order, deduplicated. -/
def childrenOfFrontier (blocks : Reg) (frontier : List String) : List String :=
  frontier.foldl (fun acc l =>
    (((blocks.lookup l).map Block.children).getD []).foldl insertUnique acc) []

/-- The downward-closure `while block_dependencies` loop
(lines 613-621), with fuel: each iteration adds all children of the
frontier to the selection and makes them the new frontier, stopping
when the frontier is empty.  (The frontier is rebuilt from children
even when they are already selected, so a cyclic children graph loops
forever — hence the fuel.) -/
def closeDown (blocks : Reg) : Nat → List String → List String → Option (List String)
  | 0, sel, frontier => if frontier.isEmpty then some sel else none
  | fuel+1, sel, frontier =>
    if frontier.isEmpty then some sel
    else
      let nb := childrenOfFrontier blocks frontier
      closeDown blocks fuel (nb.foldl insertUnique sel) nb

/-- `scheduler.resolve_dependencies_down` (lines 597-621): family
expansion and child registration always run; the downward closure runs
only when the user requested specific rerun names and has not passed
`--no-deps`. -/
def resolve_dependencies_down (instances : Instances) (rerun : Option (List String))
    (noDeps : Bool) (fuel : Nat) (blocks : Reg) (sel : List String) :
    Option (Reg × List String) :=
  let blocks1 := registerChildren (expandRegistry instances blocks)
  match rerun with
  | some names =>
    if names.isEmpty then some (blocks1, sel)
    else if noDeps then some (blocks1, sel)
    else (closeDown blocks1 fuel sel sel).map (fun sel2 => (blocks1, sel2))
  | none => some (blocks1, sel)

/-- One iteration body of the upward closure (lines 627-634): for every
frontier block's dependency, a dependency whose target file does not
exist joins `new_blocks` (the next frontier), one whose target exists
is marked `complete = True` in the registry.  Returns the updated
registry and the new frontier. -/
def upStepFrontier (disk : List String) (reg : Reg) (frontier : List String) :
    Reg × List String :=
  frontier.foldl (fun acc l =>
    (((acc.1.lookup l).map Block.dependencies).getD []).foldl (fun acc d =>
      if d ∈ disk then (setComplete acc.1 d, acc.2)
      else (acc.1, insertUnique acc.2 d)) acc)
    (reg, [])

/-- The upward-closure `while block_dependencies` loop (lines 626-637),
with fuel. -/
def closeUp (disk : List String) : Nat → Reg → List String → List String →
    Option (Reg × List String)
  | 0, reg, sel, frontier => if frontier.isEmpty then some (reg, sel) else none
  | fuel+1, reg, sel, frontier =>
    if frontier.isEmpty then some (reg, sel)
    else
      let st := upStepFrontier disk reg frontier
      closeUp disk fuel st.1 (st.2.foldl insertUnique sel) st.2

/-- `scheduler.resolve_dependencies_up` (lines 624-637): upward closure
starting from the whole selection as frontier. -/
def resolve_dependencies_up (disk : List String) (fuel : Nat) (reg : Reg)
    (sel : List String) : Option (Reg × List String) :=
  closeUp disk fuel reg sel sel

/-! ## Selection, exclusion and overwrite confirmation
(numpipe.py lines 150-173 and 563-582) -/

/-- `scheduler.get_labels` (lines 584-595): a registered block name
maps to itself, an instance-family base name maps to its members.
`none` models the remaining cases (the `.h5`-filename spelling, then
`ValueError` for unknown names, which aborts the run before any side
effect). -/
def get_labels (blocks : Reg) (instances : Instances) (name : String) :
    Option (List String) :=
  if (blocks.lookup name).isSome then some [name]
  else match instances.lookup name with
    | some mems => some mems
    | none => none

/-- `blocks_to_execute` selection (lines 150-159): no `--rerun` selects
blocks whose target does not exist; bare `--rerun` selects everything;
`--rerun names` selects the labels of each name. -/
def selectBlocks (blocks : Reg) (instances : Instances) (disk : List String)
    (rerun : Option (List String)) : Option (List String) :=
  match rerun with
  | none => some ((blocks.filter (fun p => ¬ p.1 ∈ disk)).map (fun p => p.1))
  | some [] => some (blocks.map (fun p => p.1))
  | some names =>
    names.foldlM (fun sel n =>
      (get_labels blocks instances n).map (fun ls => ls.foldl insertUnique sel)) []

/-- `--exclude` handling (lines 161-163): pop each excluded name's
labels from the selection. -/
def applyExclude (blocks : Reg) (instances : Instances) (exclude : List String)
    (sel : List String) : Option (List String) :=
  exclude.foldlM (fun sel n =>
    (get_labels blocks instances n).map (fun ls => sel.filter (fun k => ¬ k ∈ ls))) sel

/-- `scheduler._overwrite` (lines 563-582): collect the selected
targets that exist on disk; if any and `--force` is not set, consult
the confirmation collaborator (`approve`); declining returns `False`
with nothing removed, otherwise every collected target is removed and
the result is `True`. -/
def overwrite (force approve : Bool) (targets : List String) (disk : List String) :
    Bool × List String :=
  let toDelete := targets.filter (fun t => t ∈ disk)
  if ¬toDelete.isEmpty ∧ ¬force ∧ ¬approve then (false, disk)
  else (true, disk.filter (fun f => ¬ f ∈ toDelete))

/-! ## The run pipeline (numpipe.py lines 147-272, standard path) -/

/-- Outcome of one `scheduler.run` invocation on the standard
(non-`--at-end`, non-`slurm`, non-`--debug`) path: whether the run
aborted at the overwrite confirmation, the executed (collected) block
names, the exception count, the final registry, the disk as the
dispatch loop first saw it, and the final disk. -/
structure RunResult where
  aborted : Bool
  executed : List String
  numExceptions : Nat
  blocks : Reg
  diskAtDispatch : List String
  disk : List String
  deriving Repr, DecidableEq

/-- `scheduler.run`, standard path, in source order: selection (lines
150-159), exclusion (161-163), `resolve_dependencies_down` (165),
`_overwrite` (168-171, aborting the whole run when it returns `False`),
`resolve_dependencies_up` (173), then the pool dispatch loop (216-258).
`none` models a `ValueError` from `get_labels` or fuel exhaustion of
one of the loops. -/
def runPipeline (instances : Instances) (rerun : Option (List String))
    (exclude : List String) (noDeps force approve : Bool)
    (raises writes : String → Bool) (sched : Nat → String → Bool)
    (fuelDown fuelUp fuelPool : Nat) (blocks : Reg) (disk : List String) :
    Option RunResult :=
  match selectBlocks blocks instances disk rerun with
  | none => none
  | some sel0 =>
  match applyExclude blocks instances exclude sel0 with
  | none => none
  | some sel1 =>
  match resolve_dependencies_down instances rerun noDeps fuelDown blocks sel1 with
  | none => none
  | some rs =>
    let ow := overwrite force approve rs.2 disk
    if ¬ ow.1 then
      some { aborted := true, executed := [], numExceptions := 0, blocks := rs.1,
             diskAtDispatch := disk, disk := disk }
    else
      match resolve_dependencies_up ow.2 fuelUp rs.1 rs.2 with
      | none => none
      | some rs2 =>
        match runPool raises writes sched fuelPool 0
            { blocks := rs2.1, remaining := rs2.2, results := [], numExceptions := 0,
              submitLog := [], collected := [], disk := ow.2 } with
        | none => none
        | some ps =>
          some { aborted := false, executed := ps.collected,
                 numExceptions := ps.numExceptions, blocks := ps.blocks,
                 diskAtDispatch := ow.2, disk := ps.disk }

/-! ## Record store and block executor (numpipe/fileio.py,
numpipe/execution.py lines 102-147) -/

/-- The record store: filepath → named symbols, `none` lookup meaning
the file does not exist.  Values are opaque (`Nat`). -/
abbrev Store := List (String × List (String × Nat))

/-- Update-or-append one file's contents. -/
def setFile (store : Store) (fp : String) (contents : List (String × Nat)) : Store :=
  if (store.lookup fp).isSome then
    store.map (fun p => if p.1 = fp then (fp, contents) else p)
  else store ++ [(fp, contents)]

/-- `write_symbols` (fileio.py lines 29-38): open the file in append
mode (creating it if absent, even for an empty mapping) and store each
symbol.  (h5py raises when re-assigning an existing dataset name; the
theorems only write to fresh targets.) -/
def write_symbols (store : Store) (fp : String) (symbols : List (String × Nat)) : Store :=
  setFile store fp (((store.lookup fp).getD []) ++ symbols)

/-- `target.exists` (execution.py lines 67-72). -/
def target_exists (store : Store) (fp : String) : Bool :=
  (store.lookup fp).isSome

/-- `target.load` via `load_symbols` (fileio.py lines 9-27): every
top-level record of the file. -/
def target_load (store : Store) (fp : String) : List (String × Nat) :=
  (store.lookup fp).getD []

/-- Non-generator return values of a user function, as classified by
`execute_block` (execution.py lines 134-141): a dict of symbols,
`None`, or anything else. -/
inductive RetVal where
  | mapping (symbols : List (String × Nat))
  | retNone
  | other
  deriving Repr, DecidableEq

/-- The standard-function branch of `execute_block` (execution.py lines
134-141), reached when the return value is not a generator: a dict is
written to the target as-is, `None` writes an empty dict, anything
else raises `ValueError` without writing. -/
def execute_standard (name : String) (fp : String) (ret : RetVal) (store : Store) :
    Except String Store :=
  match ret with
  | .mapping symbols => .ok (write_symbols store fp symbols)
  | .retNone => .ok (write_symbols store fp [])
  | .other =>
    .error ("Invalid return type: function " ++ name ++
      " needs to return a dictionary of symbols")

/-! ## Streaming cache (numflow/h5cache.py) -/

/-- `npcache` (numflow/h5cache.py lines 33-71): a bounded buffer of
`records` slots, `current_record` of them filled.  `records` is derived
in Python from the byte size of one record against the memory budget
(`int(max(1, size_bytes // size_record))`, hence at least 1); it is a
parameter here.  Records are opaque (`Nat`); `np.empty` contents are
modelled as zeros (only `data[:current_record]` is ever read). -/
structure NPCache where
  records : Nat
  current_record : Nat
  data : List Nat
  deriving Repr, DecidableEq

/-- `npcache.is_full` (lines 65-67). -/
def npcache_is_full (c : NPCache) : Bool :=
  c.current_record == c.records

/-- Fresh `npcache(shape, dtype)` with the given derived capacity. -/
def npcache_new (records : Nat) : NPCache :=
  { records := records, current_record := 0, data := List.replicate records 0 }

/-- `npcache.add` (lines 54-63): raise if full, else store the record
at `current_record`, increment, and report whether the cache is now
full. -/
def npcache_add (c : NPCache) (record : Nat) : Except String (NPCache × Bool) :=
  if npcache_is_full c then .error "the cache is full and needs to be cleared"
  else
    let c2 := { c with data := c.data.set c.current_record record,
                       current_record := c.current_record + 1 }
    .ok (c2, npcache_is_full c2)

/-- `npcache.clear` (lines 69-71): only the write cursor is reset. -/
def npcache_clear (c : NPCache) : NPCache :=
  { c with current_record := 0 }

/-- `h5cache` (lines 73-139): per-symbol on-disk datasets (the h5 file,
one growable dataset per symbol, `h5path` being 1:1 with the symbol
name) and per-symbol in-memory buffers. -/
structure H5Cache where
  datasets : List (String × List Nat)
  cache : List (String × NPCache)
  deriving Repr, DecidableEq

/-- Start index selected by the Python slice `dset[-c:]` on a dataset
of length `L` (with `c ≤ L`): for `c > 0` the tail of length `c`, but
`-0 == 0`, so an empty buffer (`c = 0`) selects the WHOLE dataset
rather than an empty tail. -/
def pyNegSliceStart (L c : Nat) : Nat :=
  if c = 0 then 0 else L - c

/-- The per-symbol body of `h5cache.flush` (lines 131-139):
`dset.resize((len + current_record,) + shape)` then
`dset[-current_record:] = cache.data[:current_record]` then
`cache.clear()`.  h5py raises a broadcast error when the assigned
array's length differs from the selected slice's length. -/
def flushDataset (dset : List Nat) (c : NPCache) : Except String (List Nat × NPCache) :=
  let newLen := dset.length + c.current_record
  let resized := dset ++ List.replicate c.current_record 0
  let start := pyNegSliceStart newLen c.current_record
  let src := c.data.take c.current_record
  if newLen - start = src.length then
    .ok (resized.take start ++ src, npcache_clear c)
  else .error "h5py broadcast error: shape mismatch assigning slice"

/-- Update one symbol's dataset in place. -/
def setDataset (ds : List (String × List Nat)) (name : String) (v : List Nat) :
    List (String × List Nat) :=
  ds.map (fun p => if p.1 = name then (name, v) else p)

/-- `h5cache.flush` (lines 127-139): flush every buffered symbol to its
dataset; an h5py error propagates out of the loop. -/
def h5flush (hc : H5Cache) : Except String H5Cache :=
  (hc.cache.foldlM
    (fun (acc : List (String × List Nat) × List (String × NPCache))
         (p : String × NPCache) => do
      let r ← flushDataset ((acc.1.lookup p.1).getD []) p.2
      pure (setDataset acc.1 p.1 r.1, acc.2 ++ [(p.1, r.2)]))
    (hc.datasets, ([] : List (String × NPCache)))).map
    (fun (acc : List (String × List Nat) × List (String × NPCache)) =>
      ({ datasets := acc.1, cache := acc.2 } : H5Cache))

/-- `h5cache.add` (lines 91-125): append to the symbol's buffer,
creating an empty dataset and a fresh buffer on first sight of the
symbol (`KeyError` branch); flush everything when the buffer filled up
or the time budget elapsed (`timeExceeded`, an oracle for
`time.time() - time_start > cache_time`).  `capacity` is the derived
buffer size of a fresh `npcache`. -/
def h5add (hc : H5Cache) (name : String) (record : Nat) (capacity : Nat)
    (timeExceeded : Bool) : Except String H5Cache :=
  match hc.cache.lookup name with
  | some c => do
      let r ← npcache_add c record
      let newCache := hc.cache.map (fun p => if p.1 = name then (name, r.1) else p)
      let hc2 : H5Cache := { hc with cache := newCache }
      if r.2 || timeExceeded then h5flush hc2 else pure hc2
  | none => do
      let r ← npcache_add (npcache_new capacity) record
      let hc2 : H5Cache := { datasets := hc.datasets ++ [(name, [])]
                             cache := hc.cache ++ [(name, r.1)] }
      if r.2 || timeExceeded then h5flush hc2 else pure hc2

/-! ## Arity of the executor call sites (numpipe.py lines 203-228,
execution.py lines 102 and 149) -/

/-- Parameter list of `execute_block` (execution.py line 102); no
parameter has a default and there is no `*args`/`**kwargs`. -/
def execute_block_params : List String :=
  ["block", "name", "mpi_rank", "instances", "cache_time", "tqdm_position", "total"]

/-- Parameter list of `execute_block_debug` (execution.py line 149). -/
def execute_block_debug_params : List String :=
  ["block", "name", "mpi_rank", "instances", "cache_time", "tqdm_position", "total"]

/-- The positional argument tuple `scheduler.run` hands to
`pool.apply_async(execute_block, ...)` (numpipe.py lines 227-228). -/
def run_pool_call_args : List String :=
  ["block", "name", "self.instances", "self.args.cache_time",
   "num_blocks_ran", "self.num_blocks_executed"]

/-- The positional arguments of the `execute_block_debug` call in debug
mode (numpipe.py lines 206-207). -/
def run_debug_call_args : List String :=
  ["block", "name", "self.instances", "self.args.cache_time",
   "num_blocks_ran", "self.num_blocks_executed"]

/-- Python positional-argument binding for a function with no default
values and no variadic parameters: the call succeeds iff the counts
match, else `TypeError` before the body runs. -/
def bindPositional (params args : List String) : Option (List (String × String)) :=
  if params.length = args.length then some (params.zip args) else none

/-! ## Parameter expansion (numpipe.py lines 317-409,
numpipe/parameters.py lines 4-23) -/

/-- A keyword-argument value seen by `scheduler.add`: either a plain
value or a `numpipe.parameter` with its `outer` flag and its (already
flattened) value sequence.  Values are opaque (`Nat`). -/
inductive KwVal where
  | plain (v : Nat)
  | param (outer : Bool) (vals : List Nat)
  deriving Repr, DecidableEq

/-- `itertools.product` over the value sequences (rightmost varies
fastest). -/
def productL : List (List Nat) → List (List Nat)
  | [] => [[]]
  | l :: rest => l.flatMap (fun v => (productL rest).map (fun t => v :: t))

/-- Length of Python `zip(*ls)` for nonempty `ls`: the shortest input
(zip truncates to the shortest sequence). -/
def minLen : List (List Nat) → Nat
  | [] => 0
  | l :: rest => rest.foldl (fun m x => min m x.length) l.length

/-- Python `zip(*ls)`: rows of one value per sequence, truncated to the
shortest sequence. -/
def zipL (ls : List (List Nat)) : List (List Nat) :=
  (List.range (minLen ls)).map (fun i => ls.map (fun l => l.getD i 0))

/-- Replace parameter kwargs by concrete values
(`new_kwargs.update(replace)` after `copy(kwargs)`). -/
def substKw (repl : List (String × Nat)) (kwargs : List (String × KwVal)) :
    List (String × KwVal) :=
  kwargs.map (fun p =>
    match repl.lookup p.1 with
    | some v => (p.1, KwVal.plain v)
    | none => p)

/-- The outer (`parameter(..., outer=True)`) kwargs of a call, in
declaration order (`kwarg_params_outer`, lines 332-339). -/
def outerParams (kwargs : List (String × KwVal)) : List (String × List Nat) :=
  kwargs.filterMap (fun p =>
    match p.2 with
    | .param true vs => some (p.1, vs)
    | _ => none)

/-- The non-outer parameter kwargs (`kwarg_params`, lines 332-339). -/
def zipParams (kwargs : List (String × KwVal)) : List (String × List Nat) :=
  kwargs.filterMap (fun p =>
    match p.2 with
    | .param false vs => some (p.1, vs)
    | _ => none)

/-- `scheduler.add` (lines 317-409), restricted to the instances it
generates: with both outer and non-outer parameters present, for every
cross-product combination of outer values the full zipped sequence of
non-outer values is replayed (lines 341-361); with only outer
parameters, one recursive call per cross-product combination (lines
362-374); with only non-outer parameters, one per zipped row (lines
375-387); with no parameters, register exactly one block with these
kwargs (lines 389-409).  Every recursive call substitutes concrete
values for all parameter kwargs, so the recursion depth is at most one;
`fuel` bounds it (`fuel = 2` is exact, see `addInstances_fuel_ge_two`). -/
def addInstances : Nat → List (String × KwVal) → List (List (String × KwVal))
  | 0, _ => []
  | fuel+1, kwargs =>
    let ops := outerParams kwargs
    let zps := zipParams kwargs
    if ¬ops.isEmpty ∧ ¬zps.isEmpty then
      (productL (ops.map (fun p => p.2))).flatMap (fun vals1 =>
        (zipL (zps.map (fun p => p.2))).flatMap (fun vals2 =>
          addInstances fuel
            (substKw ((zps.map (fun p => p.1)).zip vals2 ++
                      (ops.map (fun p => p.1)).zip vals1) kwargs)))
    else if ¬ops.isEmpty then
      (productL (ops.map (fun p => p.2))).flatMap (fun vals1 =>
        addInstances fuel (substKw ((ops.map (fun p => p.1)).zip vals1) kwargs))
    else if ¬zps.isEmpty then
      (zipL (zps.map (fun p => p.2))).flatMap (fun vals2 =>
        addInstances fuel (substKw ((zps.map (fun p => p.1)).zip vals2) kwargs))
    else [kwargs]

/-! ## Specification-level notions used by the theorems -/

/-- Dependency list of a named block (empty when unregistered). -/
def depsOfReg (reg : Reg) (l : String) : List String :=
  ((reg.lookup l).map Block.dependencies).getD []

/-- Children list of a named block (empty when unregistered). -/
def childrenOfReg (reg : Reg) (l : String) : List String :=
  ((reg.lookup l).map Block.children).getD []

/-- "Every dependency of `n` (as recorded in the registry snapshot
`snap`) maps to a block whose `complete` flag is set." -/
def depsCompleteAt (snap : Reg) (n : String) : Prop :=
  ∀ b, snap.lookup n = some b →
    ∀ D ∈ b.dependencies, ∃ bd, snap.lookup D = some bd ∧ bd.complete = true

/-- Reachability along `children` edges from a starting selection: the
downward closure the resolver is supposed to compute. -/
inductive ChildReach (reg : Reg) (sel : List String) : String → Prop
  | base {n : String} : n ∈ sel → ChildReach reg sel n
  | step {m c : String} : ChildReach reg sel m → c ∈ childrenOfReg reg m →
      ChildReach reg sel c

/-- Reachability along dependency edges from the selection, stepping
only onto dependencies whose target is absent: the upward closure the
resolver is supposed to compute. -/
inductive DepReach (reg : Reg) (disk : List String) (sel : List String) : String → Prop
  | base {n : String} : n ∈ sel → DepReach reg disk sel n
  | step {m d : String} : DepReach reg disk sel m → d ∈ depsOfReg reg m →
      ¬ d ∈ disk → DepReach reg disk sel d

/-- A registry is well-formed when every dependency of every block is
itself a registered block. -/
def depsRegistered (reg : Reg) : Prop :=
  ∀ p ∈ reg, ∀ D ∈ p.2.dependencies, (reg.lookup D).isSome

/-! ## Concrete scenarios used by counterexamples and witnesses -/

/-- Two independent blocks; `"a"`'s execution raises, `"b"`'s
succeeds. -/
def cexReg : Reg :=
  [("a", ⟨[], [], false⟩), ("b", ⟨[], [], false⟩)]

/-- Initial pool state dispatching `cexReg`. -/
def cexPool : PoolState :=
  { blocks := cexReg, remaining := ["a", "b"], results := [], numExceptions := 0,
    submitLog := [], collected := [], disk := [] }

/-- The oracle of the counterexample run: exactly block `"a"` raises. -/
def cexRaises (n : String) : Bool := n == "a"

/-- Chain registry: `B` depends on `A`, `C` depends on `B` (children
edges as the resolver registers them). -/
def chainReg : Reg :=
  [("A", ⟨[], ["B"], false⟩), ("B", ⟨["A"], ["C"], false⟩), ("C", ⟨["B"], [], false⟩)]

/-- Chain registry before child registration (no `children` edges
yet). -/
def chainReg0 : Reg :=
  [("A", ⟨[], [], false⟩), ("B", ⟨["A"], [], false⟩), ("C", ⟨["B"], [], false⟩)]

/-- Pool scenario for the dependency-order witness: `"b"` depends on
`"a"`. -/
def depReg : Reg :=
  [("a", ⟨[], [], false⟩), ("b", ⟨["a"], [], false⟩)]

/-- Initial pool state dispatching `depReg`. -/
def depPool : PoolState :=
  { blocks := depReg, remaining := ["a", "b"], results := [], numExceptions := 0,
    submitLog := [], collected := [], disk := [] }

/-- Initial debug-loop state for the same scenario. -/
def depDebug : DebugState :=
  { blocks := depReg, remaining := ["a", "b"], execLog := [] }

/-- Run result of the idempotence witness scenario: `depReg` on an
empty disk, nothing raises, every execution writes its target. -/
def c3run : RunResult :=
  { aborted := false, executed := ["a", "b"], numExceptions := 0,
    blocks := [("a", ⟨[], ["b"], true⟩), ("b", ⟨["a"], [], true⟩)],
    diskAtDispatch := [], disk := ["a", "b"] }

/-- Downward-resolution result of the overwrite witness scenario:
`--rerun a b --no-deps` over `depReg`. -/
def c7down : Reg × List String :=
  ([("a", ⟨[], ["b"], false⟩), ("b", ⟨["a"], [], false⟩)], ["a", "b"])

/-! # Theorems -/

/-! ## Generic association-list lemmas -/

theorem lookup_append_of_none {α β : Type} [BEq α] {l : List (α × β)} (l2 : List (α × β))
    {k : α} (h : l.lookup k = none) : (l ++ l2).lookup k = l2.lookup k := by
  induction l with
  | nil => rfl
  | cons p rest ih =>
    rw [List.cons_append]
    rw [List.lookup] at h ⊢
    cases hk : k == p.1 with
    | true => simp [hk] at h
    | false => simp only [hk] at h ⊢; exact ih h

/-! ## C10: arity of the dispatch-loop call sites -/

/-- C10: the dispatch loop's invocations of the block executor are NOT
well-formed: `scheduler.run` passes 6 positional arguments both to
`execute_block` (via `pool.apply_async`) and to `execute_block_debug`,
while both functions declare 7 parameters (`mpi_rank` third) with no
defaults, so Python positional binding fails and every dispatched block
raises `TypeError` before the user's function is called. -/
theorem executor_call_arity_mismatch :
    bindPositional execute_block_params run_pool_call_args = none ∧
    bindPositional execute_block_debug_params run_debug_call_args = none := by
  constructor <;> rfl

/-! ## C9: flushing an empty streaming-cache buffer -/

/-- C9: `h5cache.flush` is NOT a no-op on empty buffers.  Concrete
failing input: one record added to a cache whose derived per-symbol
capacity is 1, so `add` auto-flushes (the on-disk dataset now holds the
record and the buffer is empty); the next `flush()` — e.g. the final
flush `execute_block` always performs — evaluates
`dset[-0:] = cache.data[:0]`, i.e. assigns a length-0 array to the
whole length-1 dataset, and h5py raises a broadcast error instead of
doing nothing. -/
theorem flush_empty_buffer_raises :
    h5add { datasets := [], cache := [] } "x" 5 1 false =
      Except.ok { datasets := [("x", [5])],
                  cache := [("x", { records := 1, current_record := 0, data := [5] })] } ∧
    h5flush { datasets := [("x", [5])],
              cache := [("x", { records := 1, current_record := 0, data := [5] })] } =
      Except.error "h5py broadcast error: shape mismatch assigning slice" := by
  constructor <;> rfl

/-! ## C8: return-value classification of the block executor -/

/-- C8: on a fresh target (no file on disk, as after the overwrite
phase), the non-generator branch of `execute_block` writes a returned
mapping as-is, writes an empty mapping for `None` (so the target then
exists and loads to an empty record set), and raises `ValueError` for
any other return value, writing nothing. -/
theorem executor_return_classification (nm fp : String) (store : Store)
    (symbols : List (String × Nat)) (h : store.lookup fp = none) :
    (∃ st, execute_standard nm fp (.mapping symbols) store = .ok st ∧
      target_exists st fp = true ∧ target_load st fp = symbols) ∧
    (∃ st, execute_standard nm fp .retNone store = .ok st ∧
      target_exists st fp = true ∧ target_load st fp = []) ∧
    execute_standard nm fp .other store =
      .error ("Invalid return type: function " ++ nm ++
        " needs to return a dictionary of symbols") := by
  have hw : ∀ s, (write_symbols store fp s).lookup fp = some s := by
    intro s
    unfold write_symbols setFile
    rw [h]
    simp only [Option.getD_none, Option.isSome_none, Bool.false_eq_true, if_false,
      List.nil_append]
    rw [lookup_append_of_none _ h]
    simp [List.lookup]
  refine ⟨⟨write_symbols store fp symbols, rfl, ?_, ?_⟩,
          ⟨write_symbols store fp [], rfl, ?_, ?_⟩, rfl⟩ <;>
    simp [target_exists, target_load, hw]

/-- Witness for `executor_return_classification` at a concrete fresh
store. -/
theorem executor_return_classification_witness :
    ([] : Store).lookup "f.h5" = none ∧
    ((∃ st, execute_standard "f" "f.h5" (.mapping [("x", 2)]) [] = .ok st ∧
      target_exists st "f.h5" = true ∧ target_load st "f.h5" = [("x", 2)]) ∧
    (∃ st, execute_standard "f" "f.h5" .retNone [] = .ok st ∧
      target_exists st "f.h5" = true ∧ target_load st "f.h5" = []) ∧
    execute_standard "f" "f.h5" .other [] =
      .error ("Invalid return type: function " ++ "f" ++
        " needs to return a dictionary of symbols")) :=
  ⟨rfl, executor_return_classification "f" "f.h5" [] [("x", 2)] rfl⟩

/-! ## C6: parameter-expansion cardinality -/

theorem lookup_append_isSome {α β : Type} [BEq α] {l1 l2 : List (α × β)} {k : α} :
    ((l1 ++ l2).lookup k).isSome = ((l1.lookup k).isSome || (l2.lookup k).isSome) := by
  induction l1 with
  | nil => rfl
  | cons p rest ih =>
    rw [List.cons_append, List.lookup, List.lookup]
    cases k == p.1 with
    | true => rfl
    | false => simpa using ih

theorem lookup_zip_isSome {ks : List String} {vs : List Nat} {k : String}
    (hk : k ∈ ks) (hl : ks.length = vs.length) : ((ks.zip vs).lookup k).isSome := by
  induction ks generalizing vs with
  | nil => cases hk
  | cons a rest ih =>
    cases vs with
    | nil => cases hl
    | cons v vrest =>
      rw [List.zip_cons_cons, List.lookup]
      rcases List.mem_cons.mp hk with h | h
      · subst h; simp
      · cases hke : k == a with
        | true => simp
        | false => exact ih h (by simpa using hl)

theorem mem_productL_length {ls : List (List Nat)} {t : List Nat}
    (h : t ∈ productL ls) : t.length = ls.length := by
  induction ls generalizing t with
  | nil => simp only [productL, List.mem_singleton] at h; subst h; rfl
  | cons l rest ih =>
    simp only [productL, List.mem_flatMap, List.mem_map] at h
    obtain ⟨v, _, t', ht', rfl⟩ := h
    simp [ih ht']

theorem sum_map_const {α : Type} (l : List α) (c : Nat) :
    (l.map (fun _ => c)).sum = l.length * c := by
  rw [List.map_const', List.sum_replicate, smul_eq_mul]

theorem productL_length (ls : List (List Nat)) :
    (productL ls).length = (ls.map List.length).prod := by
  induction ls with
  | nil => rfl
  | cons l rest ih =>
    simp only [productL, List.length_flatMap, List.map_map]
    simp only [Function.comp_def, List.length_map, ih]
    rw [sum_map_const, List.map_cons, List.prod_cons, Nat.mul_comm]

theorem mem_zipL_length {ls : List (List Nat)} {t : List Nat}
    (h : t ∈ zipL ls) : t.length = ls.length := by
  simp only [zipL, List.mem_map, List.mem_range] at h
  obtain ⟨i, _, rfl⟩ := h
  simp

theorem zipL_length (ls : List (List Nat)) : (zipL ls).length = minLen ls := by
  simp [zipL]

/-- A parameter entry of the kwargs appears among the outer or zip
parameters, according to its flag. -/
theorem param_key_mem {kwargs : List (String × KwVal)} {p : String × KwVal}
    (hp : p ∈ kwargs) {o : Bool} {vs : List Nat} (he : p.2 = .param o vs) :
    (o = true → p.1 ∈ (outerParams kwargs).map Prod.fst) ∧
    (o = false → p.1 ∈ (zipParams kwargs).map Prod.fst) := by
  constructor <;> intro ho <;> subst ho <;>
    exact List.mem_map.mpr ⟨(p.1, vs), List.mem_filterMap.mpr ⟨p, hp, by rw [he]⟩, rfl⟩

/-- After substituting a replacement that covers every parameter key,
no parameter kwargs remain. -/
theorem substKw_no_params {repl : List (String × Nat)} {kwargs : List (String × KwVal)}
    (hcov : ∀ p ∈ kwargs, ∀ o vs, p.2 = KwVal.param o vs → ((repl.lookup p.1).isSome)) :
    outerParams (substKw repl kwargs) = [] ∧ zipParams (substKw repl kwargs) = [] := by
  have hall : ∀ p ∈ substKw repl kwargs, ∀ o vs, ¬ p.2 = KwVal.param o vs := by
    intro p hp o vs he
    unfold substKw at hp
    obtain ⟨q, hq, rfl⟩ := List.mem_map.mp hp
    cases hr : repl.lookup q.1 with
    | some w =>
      rw [hr] at he
      exact KwVal.noConfusion he
    | none =>
      rw [hr] at he
      have hs := hcov q hq o vs he
      rw [hr] at hs
      cases hs
  constructor
  · unfold outerParams
    apply List.filterMap_eq_nil_iff.mpr
    intro p hp
    cases hv : p.2 with
    | plain v => rfl
    | param o vs => exact absurd hv (hall p hp o vs)
  · unfold zipParams
    apply List.filterMap_eq_nil_iff.mpr
    intro p hp
    cases hv : p.2 with
    | plain v => rfl
    | param o vs => exact absurd hv (hall p hp o vs)

/-- The base case of `scheduler.add`: no parameter kwargs registers
exactly this kwargs assignment. -/
theorem addInstances_base {kwargs : List (String × KwVal)} (fuel : Nat)
    (ho : outerParams kwargs = []) (hz : zipParams kwargs = []) :
    addInstances (fuel+1) kwargs = [kwargs] := by
  unfold addInstances
  simp [ho, hz]

/-- Branch of `scheduler.add` taken with only non-outer parameters
(numpipe.py lines 375-387). -/
theorem addInstances_zip_only {kwargs : List (String × KwVal)} (fuel : Nat)
    (ho : outerParams kwargs = []) (hz : ¬ zipParams kwargs = []) :
    addInstances (fuel+1) kwargs =
      (zipL ((zipParams kwargs).map (fun p => p.2))).flatMap (fun vals2 =>
        addInstances fuel
          (substKw (((zipParams kwargs).map (fun p => p.1)).zip vals2) kwargs)) := by
  conv_lhs => unfold addInstances
  simp [ho, hz, List.isEmpty_iff]

/-- Branch of `scheduler.add` taken with only outer parameters
(numpipe.py lines 362-374). -/
theorem addInstances_outer_only {kwargs : List (String × KwVal)} (fuel : Nat)
    (ho : ¬ outerParams kwargs = []) (hz : zipParams kwargs = []) :
    addInstances (fuel+1) kwargs =
      (productL ((outerParams kwargs).map (fun p => p.2))).flatMap (fun vals1 =>
        addInstances fuel
          (substKw (((outerParams kwargs).map (fun p => p.1)).zip vals1) kwargs)) := by
  conv_lhs => unfold addInstances
  simp [ho, hz, List.isEmpty_iff]

/-- Branch of `scheduler.add` taken with both parameter kinds
(numpipe.py lines 341-361): outer product outside, zipped sequence
inside. -/
theorem addInstances_mixed {kwargs : List (String × KwVal)} (fuel : Nat)
    (ho : ¬ outerParams kwargs = []) (hz : ¬ zipParams kwargs = []) :
    addInstances (fuel+1) kwargs =
      (productL ((outerParams kwargs).map (fun p => p.2))).flatMap (fun vals1 =>
        (zipL ((zipParams kwargs).map (fun p => p.2))).flatMap (fun vals2 =>
          addInstances fuel
            (substKw (((zipParams kwargs).map (fun p => p.1)).zip vals2 ++
                      ((outerParams kwargs).map (fun p => p.1)).zip vals1) kwargs))) := by
  conv_lhs => unfold addInstances
  simp [ho, hz, List.isEmpty_iff]

/-- C6: instance counts produced by `scheduler.add`.  All parameter
kwargs non-outer with a common length `n` (and at least one present)
yield exactly `n` instances; all-outer parameter kwargs yield the
product of their lengths; with both kinds present, the full zipped
sequence (its length the zip truncation `minLen`, the common length
when lengths agree) is replayed once per outer cross-product
combination. -/
theorem parameter_expansion_cardinality (kwargs : List (String × KwVal)) (n : Nat) :
    (outerParams kwargs = [] → zipParams kwargs ≠ [] →
      (∀ p ∈ zipParams kwargs, p.2.length = n) →
      (addInstances 2 kwargs).length = n) ∧
    (zipParams kwargs = [] → outerParams kwargs ≠ [] →
      (addInstances 2 kwargs).length =
        ((outerParams kwargs).map (fun p => p.2.length)).prod) ∧
    (outerParams kwargs ≠ [] → zipParams kwargs ≠ [] →
      (addInstances 2 kwargs).length =
        ((outerParams kwargs).map (fun p => p.2.length)).prod *
          minLen ((zipParams kwargs).map (fun p => p.2))) := by
  set ops := outerParams kwargs with hops
  set zps := zipParams kwargs with hzps
  -- the inner recursive call always lands in the base case
  have hinner : ∀ (repl : List (String × Nat)),
      (∀ p ∈ kwargs, ∀ o vs, p.2 = KwVal.param o vs → ((repl.lookup p.1).isSome)) →
      addInstances 1 (substKw repl kwargs) = [substKw repl kwargs] := by
    intro repl hcov
    obtain ⟨h1, h2⟩ := substKw_no_params hcov
    exact addInstances_base 0 h1 h2
  have hzipcov : ∀ vals2 : List Nat, vals2.length = zps.length →
      ∀ p ∈ kwargs, ∀ vs, p.2 = KwVal.param false vs →
        ((((zps.map Prod.fst).zip vals2).lookup p.1).isSome) := by
    intro vals2 hl p hp vs he
    exact lookup_zip_isSome ((param_key_mem hp he).2 rfl) (by simpa using hl.symm)
  have houtcov : ∀ vals1 : List Nat, vals1.length = ops.length →
      ∀ p ∈ kwargs, ∀ vs, p.2 = KwVal.param true vs →
        ((((ops.map Prod.fst).zip vals1).lookup p.1).isSome) := by
    intro vals1 hl p hp vs he
    exact lookup_zip_isSome ((param_key_mem hp he).1 rfl) (by simpa using hl.symm)
  refine ⟨?_, ?_, ?_⟩
  · -- all non-outer, common length n
    intro ho hz hlen
    have hbranch : addInstances 2 kwargs =
        (zipL (zps.map (fun p => p.2))).flatMap (fun vals2 =>
          addInstances 1 (substKw ((zps.map (fun p => p.1)).zip vals2) kwargs)) :=
      addInstances_zip_only 1 (hops.symm.trans ho) (fun h => hz (hzps.trans h))
    rw [hbranch, List.length_flatMap]
    simp only [Function.comp_def]
    have heach : ∀ vals2 ∈ zipL (zps.map (fun p => p.2)),
        (addInstances 1 (substKw ((zps.map (fun p => p.1)).zip vals2) kwargs)).length
          = 1 := by
      intro vals2 hv
      have hl : vals2.length = zps.length := by
        simpa using mem_zipL_length hv
      rw [hinner _ ?_]
      · rfl
      · intro p hp o vs he
        cases o with
        | true =>
          exact absurd ((param_key_mem hp he).1 rfl) (by rw [← hops, ho]; simp)
        | false => exact hzipcov vals2 hl p hp vs he
    rw [List.map_congr_left heach]
    rw [sum_map_const, mul_one, zipL_length]
    -- minLen of equal-length lists is that common length
    have : ∀ (rest : List (List Nat)), (∀ l ∈ rest, l.length = n) →
        rest.foldl (fun m x => min m x.length) n = n := by
      intro rest
      induction rest with
      | nil => intro _; rfl
      | cons l r ih =>
        intro hall
        rw [List.foldl_cons, hall l (List.mem_cons_self _ _), min_self]
        exact ih (fun x hx => hall x (List.mem_cons_of_mem _ hx))
    rcases hzz : zps with _ | ⟨q, qrest⟩
    · exact absurd hzz hz
    · simp only [List.map_cons, minLen]
      rw [hlen q (by rw [hzz]; exact List.mem_cons_self _ _)]
      exact this _ (by
        intro l hl
        obtain ⟨p, hp, rfl⟩ := List.mem_map.mp hl
        exact hlen p (by rw [hzz]; exact List.mem_cons_of_mem _ hp))
  · -- all outer
    intro hz ho
    have hbranch : addInstances 2 kwargs =
        (productL (ops.map (fun p => p.2))).flatMap (fun vals1 =>
          addInstances 1 (substKw ((ops.map (fun p => p.1)).zip vals1) kwargs)) :=
      addInstances_outer_only 1 (fun h => ho (hops.trans h)) (hzps.symm.trans hz)
    rw [hbranch, List.length_flatMap]
    simp only [Function.comp_def]
    have heach : ∀ vals1 ∈ productL (ops.map (fun p => p.2)),
        (addInstances 1 (substKw ((ops.map (fun p => p.1)).zip vals1) kwargs)).length
          = 1 := by
      intro vals1 hv
      have hl : vals1.length = ops.length := by
        simpa using mem_productL_length hv
      rw [hinner _ ?_]
      · rfl
      · intro p hp o vs he
        cases o with
        | true => exact houtcov vals1 hl p hp vs he
        | false =>
          exact absurd ((param_key_mem hp he).2 rfl) (by rw [← hzps, hz]; simp)
    rw [List.map_congr_left heach, sum_map_const, mul_one, productL_length]
    rw [List.map_map]
    rfl
  · -- both kinds present
    intro ho hz
    have hbranch : addInstances 2 kwargs =
        (productL (ops.map (fun p => p.2))).flatMap (fun vals1 =>
          (zipL (zps.map (fun p => p.2))).flatMap (fun vals2 =>
            addInstances 1
              (substKw ((zps.map (fun p => p.1)).zip vals2 ++
                        (ops.map (fun p => p.1)).zip vals1) kwargs))) :=
      addInstances_mixed 1 (fun h => ho (hops.trans h)) (fun h => hz (hzps.trans h))
    rw [hbranch, List.length_flatMap]
    simp only [Function.comp_def]
    have heach : ∀ vals1 ∈ productL (ops.map (fun p => p.2)),
        ((zipL (zps.map (fun p => p.2))).flatMap (fun vals2 =>
          addInstances 1
            (substKw ((zps.map (fun p => p.1)).zip vals2 ++
                      (ops.map (fun p => p.1)).zip vals1) kwargs))).length
          = minLen ((zipParams kwargs).map (fun p => p.2)) := by
      intro vals1 hv1
      have hl1 : vals1.length = ops.length := by
        simpa using mem_productL_length hv1
      rw [List.length_flatMap]
      simp only [Function.comp_def]
      have hin : ∀ vals2 ∈ zipL (zps.map (fun p => p.2)),
          (addInstances 1
            (substKw ((zps.map (fun p => p.1)).zip vals2 ++
                      (ops.map (fun p => p.1)).zip vals1) kwargs)).length = 1 := by
        intro vals2 hv2
        have hl2 : vals2.length = zps.length := by
          simpa using mem_zipL_length hv2
        rw [hinner _ ?_]
        · rfl
        · intro p hp o vs he
          rw [lookup_append_isSome]
          cases o with
          | true =>
            rw [houtcov vals1 hl1 p hp vs he, Bool.or_true]
          | false =>
            rw [hzipcov vals2 hl2 p hp vs he, Bool.true_or]
      rw [List.map_congr_left hin, sum_map_const, mul_one, zipL_length]
    rw [List.map_congr_left heach, sum_map_const, productL_length, List.map_map]
    rfl

/-- Witness for `parameter_expansion_cardinality`: zipping two length-3
parameters gives 3 instances, crossing outer parameters of lengths 2
and 3 gives 6, and the mixed call with outer lengths (2) and zipped
lengths (3,3) gives 2·3 = 6. -/
theorem parameter_expansion_cardinality_witness :
    (addInstances 2 [("x", .param false [1,2,3]), ("y", .param false [4,5,6])]).length
        = 3 ∧
    (addInstances 2 [("x", .param true [1,2]), ("y", .param true [4,5,6])]).length
        = 6 ∧
    (addInstances 2 [("x", .param true [1,2]), ("y", .param false [4,5,6]),
        ("z", .param false [7,8,9]), ("w", .plain 0)]).length = 2 * 3 := by
  refine ⟨?_, ?_, ?_⟩
  · exact (parameter_expansion_cardinality
      [("x", .param false [1,2,3]), ("y", .param false [4,5,6])] 3).1
      (by decide) (by decide) (by decide)
  · have h := (parameter_expansion_cardinality
      [("x", .param true [1,2]), ("y", .param true [4,5,6])] 0).2.1
      (by decide) (by decide)
    rw [h]; decide
  · have h := (parameter_expansion_cardinality
      [("x", .param true [1,2]), ("y", .param false [4,5,6]),
        ("z", .param false [7,8,9]), ("w", .plain 0)] 0).2.2
      (by decide) (by decide)
    rw [h]; decide

/-! ## Association-list and ordered-set helper lemmas -/

theorem lookup_mem {α β : Type} [BEq α] [LawfulBEq α] {l : List (α × β)} {k : α} {b : β}
    (h : l.lookup k = some b) : (k, b) ∈ l := by
  obtain ⟨l1, l2, rfl, -⟩ := List.lookup_eq_some_iff.mp h
  simp

theorem mem_insertUnique {l : List String} {x y : String} :
    y ∈ insertUnique l x ↔ y ∈ l ∨ y = x := by
  unfold insertUnique
  by_cases h : x ∈ l
  · rw [if_pos h]
    constructor
    · exact Or.inl
    · rintro (hy | rfl)
      · exact hy
      · exact h
  · rw [if_neg h]
    simp

theorem mem_foldl_insertUnique {ls : List String} {acc : List String} {y : String} :
    y ∈ ls.foldl insertUnique acc ↔ y ∈ acc ∨ y ∈ ls := by
  induction ls generalizing acc with
  | nil => simp
  | cons a rest ih =>
    rw [List.foldl_cons, ih, mem_insertUnique, List.mem_cons]
    tauto

theorem mem_foldl_insertUnique_if {p : String → Bool} {ls acc : List String} {y : String} :
    y ∈ ls.foldl (fun d n => if p n then insertUnique d n else d) acc ↔
      y ∈ acc ∨ (y ∈ ls ∧ p y = true) := by
  induction ls generalizing acc with
  | nil => simp
  | cons a rest ih =>
    rw [List.foldl_cons, ih, List.mem_cons]
    by_cases hpa : p a = true
    · rw [if_pos hpa, mem_insertUnique]
      constructor
      · rintro ((hy | rfl) | ⟨hy, hp⟩)
        · exact Or.inl hy
        · exact Or.inr ⟨Or.inl rfl, hpa⟩
        · exact Or.inr ⟨Or.inr hy, hp⟩
      · rintro (hy | ⟨rfl | hy, hp⟩)
        · exact Or.inl (Or.inl hy)
        · exact Or.inl (Or.inr rfl)
        · exact Or.inr ⟨hy, hp⟩
    · rw [if_neg hpa]
      constructor
      · rintro (hy | ⟨hy, hp⟩)
        · exact Or.inl hy
        · exact Or.inr ⟨Or.inr hy, hp⟩
      · rintro (hy | ⟨rfl | hy, hp⟩)
        · exact Or.inl hy
        · exact absurd hp hpa
        · exact Or.inr ⟨hy, hp⟩

theorem lookup_map_value {α β γ : Type} [BEq α] (f : β → γ) (l : List (α × β)) (k : α) :
    (l.map (fun p => (p.1, f p.2))).lookup k = (l.lookup k).map f := by
  induction l with
  | nil => rfl
  | cons p rest ih =>
    rw [List.map_cons, List.lookup_cons, List.lookup_cons]
    cases k == p.1 with
    | true => rfl
    | false => exact ih

theorem lookup_setComplete (bs : Reg) (n m : String) :
    (setComplete bs n).lookup m =
      if m = n then (bs.lookup m).map markComplete else bs.lookup m := by
  induction bs with
  | nil =>
    unfold setComplete
    rcases eq_or_ne m n with rfl | h
    · simp
    · simp [h]
  | cons p rest ih =>
    unfold setComplete
    rw [List.map_cons]
    unfold setComplete at ih
    by_cases hp : p.1 = n
    · rw [if_pos hp, List.lookup_cons, List.lookup_cons]
      cases hmp : m == p.1 with
      | true =>
        have hm : m = p.1 := beq_iff_eq.mp hmp
        rw [if_pos (hm.trans hp)]
        rfl
      | false => exact ih
    · rw [if_neg hp, List.lookup_cons, List.lookup_cons]
      cases hmp : m == p.1 with
      | true =>
        have hm : m = p.1 := beq_iff_eq.mp hmp
        rw [if_neg (fun he => hp (hm.symm.trans he))]
      | false => exact ih

theorem markComplete_idem (b : Block) : markComplete (markComplete b) = markComplete b := rfl

theorem lookup_foldl_setComplete (done : List (String × Bool)) (bs : Reg) (m : String) :
    ((done.foldl (fun bs p => setComplete bs p.1) bs).lookup m) =
      if m ∈ done.map Prod.fst then (bs.lookup m).map markComplete else bs.lookup m := by
  induction done generalizing bs with
  | nil => simp
  | cons q rest ih =>
    rw [List.foldl_cons, ih, List.map_cons, lookup_setComplete]
    simp only [List.mem_cons]
    split_ifs <;>
      first
      | rfl
      | (cases List.lookup m bs <;> rfl)
      | tauto

theorem mem_filter_partition (l : List String) (p : String → Bool) (n : String) :
    n ∈ l ↔ n ∈ l.filter p ∨ n ∈ l.filter (fun x => ¬ p x) := by
  constructor
  · intro h
    cases hp : p n with
    | true => exact Or.inl (List.mem_filter.mpr ⟨h, hp⟩)
    | false => exact Or.inr (List.mem_filter.mpr ⟨h, by simp [hp]⟩)
  · rintro (h | h) <;> exact (List.mem_filter.mp h).1

theorem mem_map_fst_filter_partition {β : Type} (l : List (String × β))
    (p : String × β → Bool) (n : String) :
    n ∈ l.map Prod.fst ↔
      n ∈ (l.filter p).map Prod.fst ∨
      n ∈ (l.filter (fun x => ¬ p x)).map Prod.fst := by
  simp only [List.mem_map, List.mem_filter]
  constructor
  · rintro ⟨x, hx, rfl⟩
    cases hp : p x with
    | true => exact Or.inl ⟨x, ⟨hx, hp⟩, rfl⟩
    | false => exact Or.inr ⟨x, ⟨hx, by simp [hp]⟩, rfl⟩
  · rintro (⟨x, ⟨hx, _⟩, rfl⟩ | ⟨x, ⟨hx, _⟩, rfl⟩) <;> exact ⟨x, hx, rfl⟩

/-! ## Pool-loop step lemmas -/

theorem step_remaining_eq (raises writes rdy : String → Bool) (s : PoolState) :
    (collectPhase rdy (submitPhase raises writes s)).remaining =
      s.remaining.filter (fun n => ¬ readyName s.blocks n) := rfl

theorem step_results_eq (raises writes rdy : String → Bool) (s : PoolState) :
    (collectPhase rdy (submitPhase raises writes s)).results =
      ((s.results ++ (s.remaining.filter (fun n => readyName s.blocks n)).map
          (fun n => (n, raises n))).filter (fun p => ¬ rdy p.1)) := rfl

theorem step_collected_eq (raises writes rdy : String → Bool) (s : PoolState) :
    (collectPhase rdy (submitPhase raises writes s)).collected =
      s.collected ++ ((s.results ++ (s.remaining.filter
          (fun n => readyName s.blocks n)).map (fun n => (n, raises n))).filter
            (fun p => rdy p.1)).map (fun p => p.1) := rfl

theorem step_blocks_eq (raises writes rdy : String → Bool) (s : PoolState) :
    (collectPhase rdy (submitPhase raises writes s)).blocks =
      ((s.results ++ (s.remaining.filter (fun n => readyName s.blocks n)).map
          (fun n => (n, raises n))).filter (fun p => rdy p.1)).foldl
        (fun bs p => setComplete bs p.1) s.blocks := rfl

theorem step_numExceptions_eq (raises writes rdy : String → Bool) (s : PoolState) :
    (collectPhase rdy (submitPhase raises writes s)).numExceptions =
      s.numExceptions + (((s.results ++ (s.remaining.filter
          (fun n => readyName s.blocks n)).map (fun n => (n, raises n))).filter
            (fun p => rdy p.1)).filter (fun p => p.2)).length := rfl

theorem step_disk_eq (raises writes rdy : String → Bool) (s : PoolState) :
    (collectPhase rdy (submitPhase raises writes s)).disk =
      (s.remaining.filter (fun n => readyName s.blocks n)).foldl
        (fun d n => if writes n then insertUnique d n else d) s.disk := rfl

theorem step_submitLog_eq (raises writes rdy : String → Bool) (s : PoolState) :
    (collectPhase rdy (submitPhase raises writes s)).submitLog =
      s.submitLog ++ (s.remaining.filter (fun n => readyName s.blocks n)).map
        (fun n => (n, s.blocks)) := rfl

/-- A ready name has a registered block. -/
theorem readyName_isSome {bs : Reg} {n : String} (h : readyName bs n = true) :
    (bs.lookup n).isSome = true := by
  unfold readyName at h
  rcases hl : bs.lookup n with _ | b
  · rw [hl] at h; cases h
  · rfl

/-- A ready block's dependencies are all complete in the registry
consulted by `ready_to_run`. -/
theorem readyName_depsCompleteAt {bs : Reg} {n : String} (h : readyName bs n = true) :
    depsCompleteAt bs n := by
  intro b hb D hD
  unfold readyName at h
  rw [hb] at h
  unfold ready_to_run at h
  have h2 := List.all_eq_true.mp h D hD
  rcases hl : bs.lookup D with _ | bd
  · rw [hl] at h2
    cases h2
  · rw [hl] at h2
    exact ⟨bd, rfl, by simpa using h2⟩

/-- The step preserves registered-ness of a name's block. -/
theorem step_lookup_isSome (raises writes rdy : String → Bool) (s : PoolState)
    {m : String} (hm : (s.blocks.lookup m).isSome = true) :
    (((collectPhase rdy (submitPhase raises writes s)).blocks.lookup m).isSome = true) := by
  rw [step_blocks_eq, lookup_foldl_setComplete]
  obtain ⟨b, hb⟩ := Option.isSome_iff_exists.mp hm
  split
  · rw [hb]; rfl
  · exact hm

/-- Every in-flight entry after a step carries the oracle's verdict and
a registered block. -/
theorem step_results_inv (raises writes rdy : String → Bool) (s : PoolState)
    (hres : ∀ p ∈ s.results, p.2 = raises p.1 ∧ (s.blocks.lookup p.1).isSome = true) :
    ∀ p ∈ (collectPhase rdy (submitPhase raises writes s)).results,
      p.2 = raises p.1 ∧
      (((collectPhase rdy (submitPhase raises writes s)).blocks.lookup p.1).isSome = true) := by
  intro p hp
  rw [step_results_eq] at hp
  have hmem := (List.mem_filter.mp hp).1
  rcases List.mem_append.mp hmem with h | h
  · obtain ⟨ht, hs⟩ := hres p h
    exact ⟨ht, step_lookup_isSome raises writes rdy s hs⟩
  · obtain ⟨n, hn, rfl⟩ := List.mem_map.mp h
    refine ⟨rfl, step_lookup_isSome raises writes rdy s ?_⟩
    exact readyName_isSome (List.mem_filter.mp hn).2

/-- Every collected block after a step is registered and marked
complete. -/
theorem step_collected_inv (raises writes rdy : String → Bool) (s : PoolState)
    (hres : ∀ p ∈ s.results, (s.blocks.lookup p.1).isSome = true)
    (hcol : ∀ n ∈ s.collected, ∃ b, s.blocks.lookup n = some b ∧ b.complete = true) :
    ∀ n ∈ (collectPhase rdy (submitPhase raises writes s)).collected,
      ∃ b, (collectPhase rdy (submitPhase raises writes s)).blocks.lookup n = some b ∧
        b.complete = true := by
  intro n hn
  rw [step_collected_eq] at hn
  rw [step_blocks_eq, lookup_foldl_setComplete]
  rcases List.mem_append.mp hn with h | h
  · obtain ⟨b, hb, hbc⟩ := hcol n h
    split
    · exact ⟨markComplete b, by rw [hb]; rfl, rfl⟩
    · exact ⟨b, hb, hbc⟩
  · rw [if_pos h]
    obtain ⟨q, hq, rfl⟩ := List.mem_map.mp h
    have hq2 := (List.mem_filter.mp hq).1
    have hsome : (s.blocks.lookup q.1).isSome = true := by
      rcases List.mem_append.mp hq2 with h2 | h2
      · exact hres q h2
      · obtain ⟨m, hm, rfl⟩ := List.mem_map.mp h2
        exact readyName_isSome (List.mem_filter.mp hm).2
    obtain ⟨b, hb⟩ := Option.isSome_iff_exists.mp hsome
    exact ⟨markComplete b, by rw [hb]; rfl, rfl⟩

theorem filter_snd_length (raises : String → Bool) :
    ∀ (l : List (String × Bool)), (∀ p ∈ l, p.2 = raises p.1) →
      (l.filter (fun p => p.2)).length =
        ((l.map Prod.fst).filter (fun n => raises n)).length := by
  intro l
  induction l with
  | nil => intro _; rfl
  | cons q rest ih =>
    intro h
    have hq := h q (List.mem_cons_self _ _)
    have hrest := fun p hp => h p (List.mem_cons_of_mem _ hp)
    rw [List.map_cons, List.filter_cons, List.filter_cons, hq]
    cases hv : raises q.1 <;> simp [ih hrest]

/-- The exception counter advances exactly by the raising blocks
collected in the step. -/
theorem step_exceptions (raises writes rdy : String → Bool) (s : PoolState)
    (hres : ∀ p ∈ s.results, p.2 = raises p.1) :
    (collectPhase rdy (submitPhase raises writes s)).numExceptions +
        (s.collected.filter (fun n => raises n)).length =
      s.numExceptions +
        (((collectPhase rdy (submitPhase raises writes s)).collected.filter
          (fun n => raises n)).length) := by
  rw [step_numExceptions_eq, step_collected_eq]
  have htag : ∀ p ∈ ((s.results ++ (s.remaining.filter
      (fun n => readyName s.blocks n)).map (fun n => (n, raises n))).filter
        (fun p => rdy p.1)), p.2 = raises p.1 := by
    intro p hp
    rcases List.mem_append.mp (List.mem_filter.mp hp).1 with h | h
    · exact hres p h
    · obtain ⟨m, _, rfl⟩ := List.mem_map.mp h
      rfl
  generalize hD : (s.results ++ (s.remaining.filter
      (fun n => readyName s.blocks n)).map (fun n => (n, raises n))).filter
        (fun p => rdy p.1) = done at htag ⊢
  have hfst : (fun p : String × Bool => p.1) = Prod.fst := rfl
  rw [hfst, List.filter_append, List.length_append, filter_snd_length raises done htag]
  omega

/-- One step preserves the name population
`remaining ∪ in-flight ∪ collected`. -/
theorem step_names (raises writes rdy : String → Bool) (s : PoolState) (n : String) :
    (n ∈ (collectPhase rdy (submitPhase raises writes s)).remaining ∨
     n ∈ (collectPhase rdy (submitPhase raises writes s)).results.map Prod.fst ∨
     n ∈ (collectPhase rdy (submitPhase raises writes s)).collected) ↔
    (n ∈ s.remaining ∨ n ∈ s.results.map Prod.fst ∨ n ∈ s.collected) := by
  rw [step_remaining_eq, step_results_eq, step_collected_eq]
  have hfst : (fun p : String × Bool => p.1) = Prod.fst := rfl
  rw [hfst, List.mem_append]
  have h1 := mem_filter_partition s.remaining (fun n => readyName s.blocks n) n
  have h2 := mem_map_fst_filter_partition
    (s.results ++ (s.remaining.filter (fun n => readyName s.blocks n)).map
      (fun n => (n, raises n))) (fun p => rdy p.1) n
  have h3 : n ∈ (s.results ++ (s.remaining.filter
      (fun n => readyName s.blocks n)).map (fun n => (n, raises n))).map Prod.fst ↔
      (n ∈ s.results.map Prod.fst ∨ n ∈ s.remaining.filter (fun n => readyName s.blocks n)) := by
    rw [List.map_append, List.mem_append, List.map_map]
    constructor
    · rintro (h | h)
      · exact Or.inl h
      · right
        obtain ⟨m, hm, rfl⟩ := List.mem_map.mp h
        exact hm
    · rintro (h | h)
      · exact Or.inl h
      · exact Or.inr (List.mem_map.mpr ⟨n, h, rfl⟩)
  constructor
  · rintro (h | h | h | h)
    · exact Or.inl (List.mem_of_mem_filter h)
    · rcases h3.mp (h2.mpr (Or.inr h)) with h5 | h5
      · exact Or.inr (Or.inl h5)
      · exact Or.inl (List.mem_of_mem_filter h5)
    · exact Or.inr (Or.inr h)
    · rcases h3.mp (h2.mpr (Or.inl h)) with h6 | h6
      · exact Or.inr (Or.inl h6)
      · exact Or.inl (List.mem_of_mem_filter h6)
  · rintro (h | h | h)
    · rcases h1.mp h with h5 | h5
      · rcases h2.mp (h3.mpr (Or.inr h5)) with h6 | h6
        · exact Or.inr (Or.inr (Or.inr h6))
        · exact Or.inr (Or.inl h6)
      · exact Or.inl h5
    · rcases h2.mp (h3.mpr (Or.inl h)) with h6 | h6
      · exact Or.inr (Or.inr (Or.inr h6))
      · exact Or.inr (Or.inl h6)
    · exact Or.inr (Or.inr (Or.inl h))

/-- The disk only grows during a step. -/
theorem step_disk_superset (raises writes rdy : String → Bool) (s : PoolState) :
    ∀ f ∈ s.disk, f ∈ (collectPhase rdy (submitPhase raises writes s)).disk := by
  intro f hf
  rw [step_disk_eq]
  exact mem_foldl_insertUnique_if.mpr (Or.inl hf)

/-- Any file on disk after a step was there before or is a written
block's target. -/
theorem step_disk_new (raises writes rdy : String → Bool) (s : PoolState) :
    ∀ f ∈ (collectPhase rdy (submitPhase raises writes s)).disk,
      f ∈ s.disk ∨ writes f = true := by
  intro f hf
  rw [step_disk_eq] at hf
  rcases mem_foldl_insertUnique_if.mp hf with h | ⟨-, hw⟩
  · exact Or.inl h
  · exact Or.inr hw

/-- Submitted-or-collected blocks with a writing execution have their
target on disk, preserved by the step. -/
theorem step_disk_written (raises writes rdy : String → Bool) (s : PoolState)
    (hdisk : ∀ n, ((n ∈ s.results.map Prod.fst ∨ n ∈ s.collected) ∧ writes n = true) →
      n ∈ s.disk) :
    ∀ n, ((n ∈ (collectPhase rdy (submitPhase raises writes s)).results.map Prod.fst ∨
           n ∈ (collectPhase rdy (submitPhase raises writes s)).collected) ∧
          writes n = true) →
      n ∈ (collectPhase rdy (submitPhase raises writes s)).disk := by
  intro n ⟨hmem, hw⟩
  rw [step_disk_eq]
  rw [step_results_eq, step_collected_eq] at hmem
  have hsplit : n ∈ s.results.map Prod.fst ∨ n ∈ s.collected ∨
      n ∈ s.remaining.filter (fun m => readyName s.blocks m) := by
    rcases hmem with h | h
    · obtain ⟨p, hp, rfl⟩ := List.mem_map.mp h
      rcases List.mem_append.mp (List.mem_filter.mp hp).1 with h2 | h2
      · exact Or.inl (List.mem_map.mpr ⟨p, h2, rfl⟩)
      · obtain ⟨m, hm, rfl⟩ := List.mem_map.mp h2
        exact Or.inr (Or.inr hm)
    · rcases List.mem_append.mp h with h2 | h2
      · exact Or.inr (Or.inl h2)
      · obtain ⟨p, hp, rfl⟩ := List.mem_map.mp h2
        rcases List.mem_append.mp (List.mem_filter.mp hp).1 with h3 | h3
        · exact Or.inl (List.mem_map.mpr ⟨p, h3, rfl⟩)
        · obtain ⟨m, hm, rfl⟩ := List.mem_map.mp h3
          exact Or.inr (Or.inr hm)
  rcases hsplit with h | h | h
  · exact mem_foldl_insertUnique_if.mpr (Or.inl (hdisk n ⟨Or.inl h, hw⟩))
  · exact mem_foldl_insertUnique_if.mpr (Or.inl (hdisk n ⟨Or.inr h, hw⟩))
  · exact mem_foldl_insertUnique_if.mpr (Or.inr ⟨h, hw⟩)

/-- Master invariant theorem for the pool dispatch loop: from a state
whose in-flight entries are tagged correctly and registered, whose
collected blocks are complete, and whose written blocks are on disk,
any drained run satisfies: both worklists empty; the collected set is
exactly the initial name population; the exception counter advanced by
the number of raising collected blocks; every collected block is marked
complete (raised or not); the disk only grew, only by written blocks,
and contains every collected written block's target. -/
theorem runPool_spec (raises writes : String → Bool) (sched : Nat → String → Bool)
    (fuel : Nat) :
    ∀ (t : Nat) (s sf : PoolState),
      runPool raises writes sched fuel t s = some sf →
      (∀ p ∈ s.results, p.2 = raises p.1 ∧ (s.blocks.lookup p.1).isSome = true) →
      (∀ n ∈ s.collected, ∃ b, s.blocks.lookup n = some b ∧ b.complete = true) →
      (∀ n, ((n ∈ s.results.map Prod.fst ∨ n ∈ s.collected) ∧ writes n = true) →
        n ∈ s.disk) →
      sf.remaining = [] ∧ sf.results = [] ∧
      (∀ n, n ∈ sf.collected ↔
        (n ∈ s.remaining ∨ n ∈ s.results.map Prod.fst ∨ n ∈ s.collected)) ∧
      (sf.numExceptions + (s.collected.filter (fun n => raises n)).length =
        s.numExceptions + (sf.collected.filter (fun n => raises n)).length) ∧
      (∀ n ∈ sf.collected, ∃ b, sf.blocks.lookup n = some b ∧ b.complete = true) ∧
      (∀ f ∈ sf.disk, f ∈ s.disk ∨ writes f = true) ∧
      (∀ f ∈ s.disk, f ∈ sf.disk) ∧
      (∀ n, (n ∈ sf.collected ∧ writes n = true) → n ∈ sf.disk) := by
  induction fuel with
  | zero =>
    intro t s sf h hres hcol hdisk
    unfold runPool at h
    split at h
    · rename_i hcond
      cases h
      refine ⟨List.isEmpty_iff.mp hcond.1, List.isEmpty_iff.mp hcond.2, ?_, rfl, hcol, ?_, ?_, ?_⟩
      · intro n
        rw [List.isEmpty_iff.mp hcond.1, List.isEmpty_iff.mp hcond.2]
        simp
      · exact fun f hf => Or.inl hf
      · exact fun f hf => hf
      · intro n ⟨hn, hw⟩
        exact hdisk n ⟨Or.inr hn, hw⟩
    · cases h
  | succ fuel ih =>
    intro t s sf h hres hcol hdisk
    unfold runPool at h
    split at h
    · rename_i hcond
      cases h
      refine ⟨List.isEmpty_iff.mp hcond.1, List.isEmpty_iff.mp hcond.2, ?_, rfl, hcol, ?_, ?_, ?_⟩
      · intro n
        rw [List.isEmpty_iff.mp hcond.1, List.isEmpty_iff.mp hcond.2]
        simp
      · exact fun f hf => Or.inl hf
      · exact fun f hf => hf
      · intro n ⟨hn, hw⟩
        exact hdisk n ⟨Or.inr hn, hw⟩
    · have hres1 := step_results_inv raises writes (sched t) s hres
      have hcol1 := step_collected_inv raises writes (sched t) s
        (fun p hp => (hres p hp).2) hcol
      have hdisk1 := step_disk_written raises writes (sched t) s hdisk
      obtain ⟨c1, c2, c3, c4, c5, c6, c7, c8⟩ :=
        ih (t+1) _ sf h hres1 hcol1 hdisk1
      refine ⟨c1, c2, ?_, ?_, c5, ?_, ?_, c8⟩
      · intro n
        rw [c3 n]
        exact step_names raises writes (sched t) s n
      · have heq := step_exceptions raises writes (sched t) s (fun p hp => (hres p hp).1)
        omega
      · intro f hf
        rcases c6 f hf with h2 | h2
        · exact step_disk_new raises writes (sched t) s f h2
        · exact Or.inr h2
      · intro f hf
        exact c7 f (step_disk_superset raises writes (sched t) s f hf)

/-- Every submission the pool loop ever logs was guarded by
`ready_to_run` against the registry at that moment. -/
theorem runPool_submitLog (raises writes : String → Bool) (sched : Nat → String → Bool)
    (fuel : Nat) :
    ∀ (t : Nat) (s sf : PoolState),
      runPool raises writes sched fuel t s = some sf →
      ∀ e ∈ sf.submitLog, e ∈ s.submitLog ∨ depsCompleteAt e.2 e.1 := by
  induction fuel with
  | zero =>
    intro t s sf h e he
    unfold runPool at h
    split at h
    · cases h
      exact Or.inl he
    · cases h
  | succ fuel ih =>
    intro t s sf h e he
    unfold runPool at h
    split at h
    · cases h
      exact Or.inl he
    · rcases ih (t+1) _ sf h e he with h2 | h2
      · rw [step_submitLog_eq] at h2
        rcases List.mem_append.mp h2 with h3 | h3
        · exact Or.inl h3
        · obtain ⟨n, hn, rfl⟩ := List.mem_map.mp h3
          exact Or.inr (readyName_depsCompleteAt (List.mem_filter.mp hn).2)
      · exact Or.inr h2

/-- Every execution a debug pass logs was guarded by `ready_to_run`
against the registry at that moment. -/
theorem debugPassAux_log (raises : String → Bool) :
    ∀ (rem : List String) (bs : Reg) (toDel : List String) (log : List (String × Reg)),
      ∀ e ∈ (debugPassAux raises rem bs toDel log).1.2.2,
        e ∈ log ∨ readyName e.2 e.1 = true := by
  intro rem
  induction rem with
  | nil => intro bs toDel log e he; exact Or.inl he
  | cons n rest ih =>
    intro bs toDel log e he
    unfold debugPassAux at he
    by_cases hr : readyName bs n = true
    · rw [if_pos hr] at he
      by_cases hx : raises n = true
      · rw [if_pos hx] at he
        rcases List.mem_append.mp he with h | h
        · exact Or.inl h
        · rw [List.mem_singleton.mp h]
          exact Or.inr hr
      · rw [if_neg hx] at he
        rcases ih _ _ _ e he with h | h
        · rcases List.mem_append.mp h with h2 | h2
          · exact Or.inl h2
          · rw [List.mem_singleton.mp h2]
            exact Or.inr hr
        · exact Or.inr h
    · rw [if_neg hr] at he
      exact ih _ _ _ e he

/-- Every execution the debug loop ever logs was guarded by
`ready_to_run` against the registry at that moment. -/
theorem runDebug_execLog (raises : String → Bool) (fuel : Nat) :
    ∀ (s : DebugState) (out : DebugState × Bool),
      runDebug raises fuel s = some out →
      ∀ e ∈ out.1.execLog, e ∈ s.execLog ∨ readyName e.2 e.1 = true := by
  induction fuel with
  | zero =>
    intro s out h e he
    unfold runDebug at h
    split at h
    · cases h
      exact Or.inl he
    · cases h
  | succ fuel ih =>
    intro s out h e he
    unfold runDebug at h
    split at h
    · cases h
      exact Or.inl he
    · rcases hp : debugPassAux raises s.remaining s.blocks [] [] with ⟨st, ok⟩
      rw [hp] at h
      cases ok with
      | true =>
        rcases ih _ out h e he with h2 | h2
        · rcases List.mem_append.mp h2 with h3 | h3
          · exact Or.inl h3
          · have h5 := debugPassAux_log raises s.remaining s.blocks [] [] e
            rw [hp] at h5
            rcases h5 h3 with h4 | h4
            · cases h4
            · exact Or.inr h4
        · exact Or.inr h2
      | false =>
        cases h
        rcases List.mem_append.mp he with h3 | h3
        · exact Or.inl h3
        · have h5 := debugPassAux_log raises s.remaining s.blocks [] [] e
          rw [hp] at h5
          rcases h5 h3 with h4 | h4
          · cases h4
          · exact Or.inr h4

/-! ## C2: dispatch respects declared dependencies -/

/-- C2: in the pool loop, a block is submitted to the worker pool only
when every name in its dependency list maps to a block whose `complete`
flag is already true — and likewise for inline execution in debug mode.
The logs pair each dispatched name with the registry snapshot at
dispatch time, so the property is exactly "never dispatched before all
dependencies are complete". -/
theorem dispatch_respects_dependencies :
    (∀ (raises writes : String → Bool) (sched : Nat → String → Bool) (fuel t : Nat)
       (s sf : PoolState), s.submitLog = [] →
       runPool raises writes sched fuel t s = some sf →
       ∀ e ∈ sf.submitLog, depsCompleteAt e.2 e.1) ∧
    (∀ (raises : String → Bool) (fuel : Nat) (s : DebugState) (out : DebugState × Bool),
       s.execLog = [] → runDebug raises fuel s = some out →
       ∀ e ∈ out.1.execLog, depsCompleteAt e.2 e.1) := by
  constructor
  · intro raises writes sched fuel t s sf hlog h e he
    rcases runPool_submitLog raises writes sched fuel t s sf h e he with h2 | h2
    · rw [hlog] at h2
      cases h2
    · exact h2
  · intro raises fuel s out hlog h e he
    rcases runDebug_execLog raises fuel s out h e he with h2 | h2
    · rw [hlog] at h2
      cases h2
    · exact readyName_depsCompleteAt h2

/-- Witness for `dispatch_respects_dependencies`: the two-block
scenario where `"b"` depends on `"a"`, run in the pool loop and in the
debug loop. -/
theorem dispatch_respects_dependencies_witness :
    depPool.submitLog = [] ∧
    (∃ sf, runPool (fun _ => false) (fun _ => true) (fun _ _ => true) 4 0 depPool = some sf ∧
      ∀ e ∈ sf.submitLog, depsCompleteAt e.2 e.1) ∧
    depDebug.execLog = [] ∧
    (∃ out, runDebug (fun _ => false) 4 depDebug = some out ∧
      ∀ e ∈ out.1.execLog, depsCompleteAt e.2 e.1) := by
  refine ⟨rfl, ⟨_, rfl, ?_⟩, rfl, ⟨_, rfl, ?_⟩⟩
  · exact dispatch_respects_dependencies.1 (fun _ => false) (fun _ => true)
      (fun _ _ => true) 4 0 depPool _ rfl rfl
  · exact dispatch_respects_dependencies.2 (fun _ => false) 4 depDebug _ rfl rfl

/-! ## C1: failure semantics of the pool loop -/

/-- C1 counterexample: block `"a"` raises and `"b"` succeeds; the loop
drains, the exception is counted — but `"a"`'s `complete` flag is
`true` at the end (`self.blocks[name].complete = True` runs after the
`except` clause regardless of the outcome), contradicting the claim
that a failed block's `complete` flag remains `False`. -/
theorem failed_block_marked_complete_counterexample :
    cexRaises "a" = true ∧
    (runPool cexRaises (fun n => !cexRaises n) (fun _ _ => true) 4 0 cexPool).map
        (fun sf => (((sf.blocks.lookup "a").map Block.complete), sf.numExceptions))
      = some (some true, 1) := by
  constructor <;> rfl

/-- C1 as the code implements it: an individual block's exception is
caught at the collection point and counted (the final exception count
is exactly the number of raising blocks collected), the loop keeps
dispatching and collecting the other blocks until it drains (every
initially-remaining block is collected), and every collected block —
raising or not — ends with `complete = true`; a failed block is
distinguishable only by the exception count and by its target, which is
on disk afterwards only if it was there before or the execution wrote
it. -/
theorem pool_loop_failure_semantics (raises writes : String → Bool)
    (sched : Nat → String → Bool) (fuel t : Nat) (s sf : PoolState)
    (hres : s.results = []) (hcol : s.collected = []) (hexc : s.numExceptions = 0)
    (h : runPool raises writes sched fuel t s = some sf) :
    (∀ n ∈ s.remaining, n ∈ sf.collected) ∧
    sf.numExceptions = (sf.collected.filter (fun n => raises n)).length ∧
    (∀ n ∈ sf.collected, ∃ b, sf.blocks.lookup n = some b ∧ b.complete = true) ∧
    (∀ f ∈ sf.disk, f ∈ s.disk ∨ writes f = true) := by
  obtain ⟨-, -, c3, c4, c5, c6, -, -⟩ := runPool_spec raises writes sched fuel t s sf h
    (by rw [hres]; intro p hp; cases hp)
    (by rw [hcol]; intro n hn; cases hn)
    (by rw [hres, hcol]; simp)
  rw [hcol, hexc] at c4
  refine ⟨?_, ?_, c5, c6⟩
  · intro n hn
    exact (c3 n).mpr (Or.inl hn)
  · simpa using c4

/-- Witness for `pool_loop_failure_semantics` at the concrete
counterexample scenario. -/
theorem pool_loop_failure_semantics_witness :
    cexPool.results = [] ∧ cexPool.collected = [] ∧ cexPool.numExceptions = 0 ∧
    (∃ sf, runPool cexRaises (fun n => !cexRaises n) (fun _ _ => true) 4 0 cexPool = some sf ∧
      (∀ n ∈ cexPool.remaining, n ∈ sf.collected) ∧
      sf.numExceptions = (sf.collected.filter (fun n => cexRaises n)).length ∧
      (∀ n ∈ sf.collected, ∃ b, sf.blocks.lookup n = some b ∧ b.complete = true) ∧
      (∀ f ∈ sf.disk, f ∈ cexPool.disk ∨ (!cexRaises f) = true)) := by
  refine ⟨rfl, rfl, rfl, ⟨_, rfl, ?_⟩⟩
  exact pool_loop_failure_semantics cexRaises (fun n => !cexRaises n)
    (fun _ _ => true) 4 0 cexPool _ rfl rfl rfl rfl

/-! ## Registry-rewriting lemmas (family expansion, child
registration) -/

theorem lookup_map_if_key (f : Block → Block) (bs : Reg) (key lbl : String) :
    ((bs.map (fun p => if p.1 = key then (p.1, f p.2) else p)).lookup lbl) =
      if lbl = key then (bs.lookup lbl).map f else bs.lookup lbl := by
  induction bs with
  | nil =>
    rcases eq_or_ne lbl key with rfl | h
    · simp
    · simp [h]
  | cons p rest ih =>
    rw [List.map_cons]
    by_cases hp : p.1 = key
    · rw [if_pos hp, List.lookup_cons, List.lookup_cons]
      cases hmp : lbl == p.1 with
      | true =>
        have hm : lbl = p.1 := beq_iff_eq.mp hmp
        rw [if_pos (hm.trans hp)]
        rfl
      | false => exact ih
    · rw [if_neg hp, List.lookup_cons, List.lookup_cons]
      cases hmp : lbl == p.1 with
      | true =>
        have hm : lbl = p.1 := beq_iff_eq.mp hmp
        rw [if_neg (fun he => hp (hm.symm.trans he))]
      | false => exact ih

theorem lookup_expandRegistry (instances : Instances) (blocks : Reg) (lbl : String) :
    (expandRegistry instances blocks).lookup lbl =
      (blocks.lookup lbl).map
        (fun b => { b with dependencies := expandDeps instances b.dependencies }) := by
  unfold expandRegistry
  exact lookup_map_value
    (fun b => { b with dependencies := expandDeps instances b.dependencies }) blocks lbl

theorem lookup_addChild (bs : Reg) (parent child lbl : String) :
    (addChild bs parent child).lookup lbl =
      if lbl = parent then
        (bs.lookup lbl).map (fun b =>
          if child ∈ b.children then b else { b with children := b.children ++ [child] })
      else bs.lookup lbl := by
  unfold addChild
  exact lookup_map_if_key
    (fun b => if child ∈ b.children then b else { b with children := b.children ++ [child] })
    bs parent lbl

/-- `addChild` changes neither dependencies nor completion flags nor
which names are registered. -/
theorem addChild_preserves (bs : Reg) (parent child lbl : String) :
    ((addChild bs parent child).lookup lbl).map Block.dependencies =
      (bs.lookup lbl).map Block.dependencies ∧
    ((addChild bs parent child).lookup lbl).map Block.complete =
      (bs.lookup lbl).map Block.complete ∧
    ((addChild bs parent child).lookup lbl).isSome = (bs.lookup lbl).isSome := by
  rw [lookup_addChild]
  split
  · cases bs.lookup lbl with
    | none => exact ⟨rfl, rfl, rfl⟩
    | some b =>
      refine ⟨?_, ?_, rfl⟩ <;> by_cases hc : child ∈ b.children <;> simp [hc]
  · exact ⟨rfl, rfl, rfl⟩

/-- `addChild` never removes a child edge. -/
theorem addChild_children_mono (bs : Reg) (parent child lbl c : String) {b : Block}
    (hb : bs.lookup lbl = some b) (hc : c ∈ b.children) :
    ∃ b', (addChild bs parent child).lookup lbl = some b' ∧ c ∈ b'.children := by
  rw [lookup_addChild]
  split
  · rw [hb]
    refine ⟨_, rfl, ?_⟩
    dsimp only
    split
    · exact hc
    · exact List.mem_append.mpr (Or.inl hc)
  · exact ⟨b, hb, hc⟩

/-- `addChild` records the edge it is asked to record. -/
theorem addChild_establishes (bs : Reg) (parent child : String)
    (h : (bs.lookup parent).isSome = true) :
    ∃ b', (addChild bs parent child).lookup parent = some b' ∧ child ∈ b'.children := by
  obtain ⟨b, hb⟩ := Option.isSome_iff_exists.mp h
  rw [lookup_addChild, if_pos rfl, hb]
  refine ⟨_, rfl, ?_⟩
  dsimp only
  split
  · assumption
  · exact List.mem_append.mpr (Or.inr (List.mem_singleton.mpr rfl))

/-- Child edges persist through the inner fold of `registerChildren`. -/
theorem foldl_addChild_mono (lbl2 : String) :
    ∀ (ds : List String) (acc : Reg) (lbl c : String) (b : Block),
      acc.lookup lbl = some b → c ∈ b.children →
      ∃ b', ((ds.foldl (fun a D => addChild a D lbl2) acc).lookup lbl) = some b' ∧
        c ∈ b'.children := by
  intro ds
  induction ds with
  | nil => intro acc lbl c b hb hc; exact ⟨b, hb, hc⟩
  | cons D rest ih =>
    intro acc lbl c b hb hc
    obtain ⟨b', hb', hc'⟩ := addChild_children_mono acc D lbl2 lbl c hb hc
    exact ih _ _ _ _ hb' hc'

/-- Registered-ness is stable under the inner fold. -/
theorem foldl_addChild_isSome (lbl2 : String) :
    ∀ (ds : List String) (acc : Reg) (m : String),
      ((ds.foldl (fun a D => addChild a D lbl2) acc).lookup m).isSome =
        ((acc.lookup m).isSome) := by
  intro ds
  induction ds with
  | nil => intro acc m; rfl
  | cons D rest ih =>
    intro acc m
    rw [List.foldl_cons, ih, (addChild_preserves acc D lbl2 m).2.2]

/-- Dependencies are stable under the inner fold. -/
theorem foldl_addChild_deps (lbl2 : String) :
    ∀ (ds : List String) (acc : Reg) (m : String),
      ((ds.foldl (fun a D => addChild a D lbl2) acc).lookup m).map Block.dependencies =
        ((acc.lookup m).map Block.dependencies) := by
  intro ds
  induction ds with
  | nil => intro acc m; rfl
  | cons D rest ih =>
    intro acc m
    rw [List.foldl_cons, ih, (addChild_preserves acc D lbl2 m).1]

/-- Completion flags are stable under the inner fold. -/
theorem foldl_addChild_complete (lbl2 : String) :
    ∀ (ds : List String) (acc : Reg) (m : String),
      ((ds.foldl (fun a D => addChild a D lbl2) acc).lookup m).map Block.complete =
        ((acc.lookup m).map Block.complete) := by
  intro ds
  induction ds with
  | nil => intro acc m; rfl
  | cons D rest ih =>
    intro acc m
    rw [List.foldl_cons, ih, (addChild_preserves acc D lbl2 m).2.1]

/-- The inner fold records the edge for every processed dependency. -/
theorem foldl_addChild_establishes (lbl2 : String) :
    ∀ (ds : List String) (acc : Reg) (D : String), D ∈ ds →
      ((acc.lookup D).isSome = true) →
      ∃ b', ((ds.foldl (fun a D => addChild a D lbl2) acc).lookup D) = some b' ∧
        lbl2 ∈ b'.children := by
  intro ds
  induction ds with
  | nil => intro acc D hD; cases hD
  | cons E rest ih =>
    intro acc D hD hsome
    rw [List.foldl_cons]
    rcases List.mem_cons.mp hD with rfl | hD2
    · obtain ⟨b', hb', hc'⟩ := addChild_establishes acc D lbl2 hsome
      exact foldl_addChild_mono lbl2 rest _ D lbl2 b' hb' hc'
    · refine ih _ D hD2 ?_
      rw [(addChild_preserves acc E lbl2 D).2.2]
      exact hsome

/-- Child edges persist through the outer fold of
`registerChildren`. -/
theorem foldl_pairs_mono :
    ∀ (pairs : List (String × List String)) (acc : Reg) (lbl c : String) (b : Block),
      acc.lookup lbl = some b → c ∈ b.children →
      ∃ b', ((pairs.foldl (fun bs p => p.2.foldl (fun bs D => addChild bs D p.1) bs)
        acc).lookup lbl) = some b' ∧ c ∈ b'.children := by
  intro pairs
  induction pairs with
  | nil => intro acc lbl c b hb hc; exact ⟨b, hb, hc⟩
  | cons q rest ih =>
    intro acc lbl c b hb hc
    rw [List.foldl_cons]
    obtain ⟨b', hb', hc'⟩ := foldl_addChild_mono q.1 q.2 acc lbl c b hb hc
    exact ih _ _ _ _ hb' hc'

/-- Registered-ness is stable under the outer fold. -/
theorem foldl_pairs_isSome :
    ∀ (pairs : List (String × List String)) (acc : Reg) (m : String),
      ((pairs.foldl (fun bs p => p.2.foldl (fun bs D => addChild bs D p.1) bs)
        acc).lookup m).isSome = ((acc.lookup m).isSome) := by
  intro pairs
  induction pairs with
  | nil => intro acc m; rfl
  | cons q rest ih =>
    intro acc m
    rw [List.foldl_cons, ih, foldl_addChild_isSome]

/-- Dependencies are stable under the outer fold. -/
theorem foldl_pairs_deps :
    ∀ (pairs : List (String × List String)) (acc : Reg) (m : String),
      ((pairs.foldl (fun bs p => p.2.foldl (fun bs D => addChild bs D p.1) bs)
        acc).lookup m).map Block.dependencies = ((acc.lookup m).map Block.dependencies) := by
  intro pairs
  induction pairs with
  | nil => intro acc m; rfl
  | cons q rest ih =>
    intro acc m
    rw [List.foldl_cons, ih, foldl_addChild_deps]

/-- Completion flags are stable under the outer fold. -/
theorem foldl_pairs_complete :
    ∀ (pairs : List (String × List String)) (acc : Reg) (m : String),
      ((pairs.foldl (fun bs p => p.2.foldl (fun bs D => addChild bs D p.1) bs)
        acc).lookup m).map Block.complete = ((acc.lookup m).map Block.complete) := by
  intro pairs
  induction pairs with
  | nil => intro acc m; rfl
  | cons q rest ih =>
    intro acc m
    rw [List.foldl_cons, ih, foldl_addChild_complete]

/-- `registerChildren` preserves lookup results except for `children`
lists. -/
theorem registerChildren_preserves (bs : Reg) (m : String) :
    ((registerChildren bs).lookup m).map Block.dependencies =
      ((bs.lookup m).map Block.dependencies) ∧
    ((registerChildren bs).lookup m).map Block.complete =
      ((bs.lookup m).map Block.complete) ∧
    ((registerChildren bs).lookup m).isSome = ((bs.lookup m).isSome) := by
  unfold registerChildren
  exact ⟨foldl_pairs_deps _ bs m, foldl_pairs_complete _ bs m, foldl_pairs_isSome _ bs m⟩

/-- After `registerChildren`, every block is recorded as a child of
each of its dependencies (provided the dependency is registered). -/
theorem registerChildren_establishes (bs : Reg)
    (hwf : ∀ p ∈ bs, ∀ D ∈ p.2.dependencies, ((bs.lookup D).isSome = true)) :
    ∀ lbl b, bs.lookup lbl = some b → ∀ D ∈ b.dependencies,
      ∃ bd, (registerChildren bs).lookup D = some bd ∧ lbl ∈ bd.children := by
  have main : ∀ (pairs : List (String × List String)) (acc : Reg),
      (∀ m : String, ((acc.lookup m).isSome) = ((bs.lookup m).isSome)) →
      ∀ q ∈ pairs, ∀ D ∈ q.2, ((bs.lookup D).isSome = true) →
      ∃ bd, ((pairs.foldl (fun bs2 p => p.2.foldl (fun bs2 E => addChild bs2 E p.1) bs2)
        acc).lookup D) = some bd ∧ q.1 ∈ bd.children := by
    intro pairs
    induction pairs with
    | nil => intro acc _ q hq; cases hq
    | cons r rest ih =>
      intro acc hkeys q hq D hD hsome
      rw [List.foldl_cons]
      rcases List.mem_cons.mp hq with rfl | hq2
      · obtain ⟨bd, hbd, hch⟩ := foldl_addChild_establishes q.1 q.2 acc D hD
          (by rw [hkeys D]; exact hsome)
        exact foldl_pairs_mono rest _ D q.1 bd hbd hch
      · refine ih _ ?_ q hq2 D hD hsome
        intro m
        rw [foldl_addChild_isSome, hkeys m]
  intro lbl b hb D hD
  unfold registerChildren
  have hpair : (lbl, b.dependencies) ∈ bs.map (fun p => (p.1, p.2.dependencies)) :=
    List.mem_map.mpr ⟨(lbl, b), lookup_mem hb, rfl⟩
  exact main _ bs (fun m => rfl) (lbl, b.dependencies) hpair D hD
    (hwf (lbl, b) (lookup_mem hb) D hD)

/-! ## Family expansion of dependency lists -/

/-- Fold invariant for `expandDeps`: membership in the accumulated
list, given that families occur at most once, unprocessed families are
still present, and family members are never family names
themselves. -/
theorem expandDeps_fold_mem (instances : Instances)
    (hmem : ∀ F mems, instances.lookup F = some mems →
      ∀ m ∈ mems, instances.lookup m = none) :
    ∀ (suf : List String) (l : List String),
      (∀ F : String, instances.lookup F ≠ none → l.count F ≤ 1) →
      (∀ F ∈ suf, instances.lookup F ≠ none → F ∈ l) →
      suf.Nodup →
      ∀ x, x ∈ suf.foldl (fun l D =>
          match instances.lookup D with
          | some mems => l.erase D ++ mems
          | none => l) l ↔
        ((x ∈ l ∧ (instances.lookup x = none ∨ ¬ x ∈ suf)) ∨
         (∃ F mems, F ∈ suf ∧ instances.lookup F = some mems ∧ x ∈ mems)) := by
  intro suf
  induction suf with
  | nil =>
    intro l _ _ _ x
    simp
  | cons F rest ih =>
    intro l hcnt hsub hnd x
    rw [List.foldl_cons]
    rcases hF : instances.lookup F with _ | mems
    · -- F is not a family: the accumulator is unchanged
      rw [ih l hcnt
        (fun G hG hGf => hsub G (List.mem_cons_of_mem _ hG) hGf)
        (List.nodup_cons.mp hnd).2 x]
      constructor
      · rintro (⟨hx, hc⟩ | ⟨G, mems', hG, hlk, hx⟩)
        · refine Or.inl ⟨hx, ?_⟩
          rcases hc with hc | hc
          · exact Or.inl hc
          · rcases eq_or_ne x F with rfl | hne
            · exact Or.inl hF
            · exact Or.inr (fun h2 => hc (List.mem_of_ne_of_mem hne h2))
        · exact Or.inr ⟨G, mems', List.mem_cons_of_mem _ hG, hlk, hx⟩
      · rintro (⟨hx, hc⟩ | ⟨G, mems', hG, hlk, hx⟩)
        · refine Or.inl ⟨hx, ?_⟩
          rcases hc with hc | hc
          · exact Or.inl hc
          · exact Or.inr (fun h2 => hc (List.mem_cons_of_mem _ h2))
        · rcases List.mem_cons.mp hG with rfl | hG2
          · rw [hF] at hlk
            cases hlk
          · exact Or.inr ⟨G, mems', hG2, hlk, hx⟩
    · -- F is a family: it is erased and its members appended
      have hFl : F ∈ l := hsub F (List.mem_cons_self _ _) (by rw [hF]; exact fun h => Option.noConfusion h)
      have hcnt1 : l.count F ≤ 1 := hcnt F (by rw [hF]; exact fun h => Option.noConfusion h)
      have hFerase : ¬ F ∈ l.erase F := by
        intro hin
        have := List.count_erase_self F l
        have h2 := List.count_pos_iff.mpr hin
        rw [this] at h2
        omega
      have hmemF : ∀ m ∈ mems, instances.lookup m = none := hmem F mems hF
      have hcnt' : ∀ G : String, instances.lookup G ≠ none →
          (l.erase F ++ mems).count G ≤ 1 := by
        intro G hG
        rw [List.count_append]
        have h1 : List.count G (l.erase F) ≤ List.count G l := by
          rw [List.count_erase]
          omega
        have h2 : List.count G mems = 0 := by
          rw [List.count_eq_zero]
          intro hin
          exact hG (hmemF G hin)
        have := hcnt G hG
        omega
      have hsub' : ∀ G ∈ rest, instances.lookup G ≠ none → G ∈ l.erase F ++ mems := by
        intro G hG hGf
        have hGl : G ∈ l := hsub G (List.mem_cons_of_mem _ hG) hGf
        have hne : G ≠ F := fun he => (List.nodup_cons.mp hnd).1 (he ▸ hG)
        exact List.mem_append.mpr (Or.inl ((List.mem_erase_of_ne hne).mpr hGl))
      rw [ih _ hcnt' hsub' (List.nodup_cons.mp hnd).2 x]
      constructor
      · rintro (⟨hx, hc⟩ | ⟨G, mems', hG, hlk, hx⟩)
        · rcases List.mem_append.mp hx with hx2 | hx2
          · have hxl : x ∈ l := List.mem_of_mem_erase hx2
            have hne : x ≠ F := by
              rintro rfl
              exact hFerase hx2
            refine Or.inl ⟨hxl, ?_⟩
            rcases hc with hc | hc
            · exact Or.inl hc
            · exact Or.inr (fun h2 => hc (List.mem_of_ne_of_mem hne h2))
          · exact Or.inr ⟨F, mems, List.mem_cons_self _ _, hF, hx2⟩
        · exact Or.inr ⟨G, mems', List.mem_cons_of_mem _ hG, hlk, hx⟩
      · rintro (⟨hx, hc⟩ | ⟨G, mems', hG, hlk, hx⟩)
        · have hne : x ≠ F := by
            rintro rfl
            rcases hc with hc | hc
            · rw [hF] at hc
              cases hc
            · exact hc (List.mem_cons_self _ _)
          refine Or.inl ⟨List.mem_append.mpr (Or.inl ((List.mem_erase_of_ne hne).mpr hx)), ?_⟩
          rcases hc with hc | hc
          · exact Or.inl hc
          · exact Or.inr (fun h2 => hc (List.mem_cons_of_mem _ h2))
        · rcases List.mem_cons.mp hG with rfl | hG2
          · rw [hF] at hlk
            cases hlk
            exact Or.inl ⟨List.mem_append.mpr (Or.inr hx),
              Or.inl (hmemF x hx)⟩
          · exact Or.inr ⟨G, mems', hG2, hlk, hx⟩

/-- Membership in an expanded dependency list: non-family dependencies
survive, family names are removed and replaced by one edge per
member. -/
theorem expandDeps_mem (instances : Instances) (deps : List String)
    (hnd : deps.Nodup)
    (hmem : ∀ F mems, instances.lookup F = some mems →
      ∀ m ∈ mems, instances.lookup m = none) :
    ∀ D, D ∈ expandDeps instances deps ↔
      ((D ∈ deps ∧ instances.lookup D = none) ∨
       (∃ F mems, F ∈ deps ∧ instances.lookup F = some mems ∧ D ∈ mems)) := by
  intro D
  unfold expandDeps
  rw [expandDeps_fold_mem instances hmem deps deps
    (fun F _ => (List.nodup_iff_count_le_one.mp hnd) F)
    (fun F hF _ => hF) hnd D]
  constructor
  · rintro (⟨hx, hc⟩ | h)
    · rcases hc with hc | hc
      · exact Or.inl ⟨hx, hc⟩
      · exact absurd hx hc
    · exact Or.inr h
  · rintro (⟨hx, hc⟩ | h)
    · exact Or.inl ⟨hx, Or.inl hc⟩
    · exact Or.inr h

/-! ## Downward closure -/

theorem mem_childrenOfFrontier_aux (blocks : Reg) :
    ∀ (frontier : List String) (acc : List String) (c : String),
      c ∈ frontier.foldl (fun acc l =>
          (((blocks.lookup l).map Block.children).getD []).foldl insertUnique acc) acc ↔
        (c ∈ acc ∨ ∃ m ∈ frontier, c ∈ childrenOfReg blocks m) := by
  intro frontier
  induction frontier with
  | nil => intro acc c; simp
  | cons a rest ih =>
    intro acc c
    rw [List.foldl_cons, ih, mem_foldl_insertUnique]
    unfold childrenOfReg
    constructor
    · rintro ((h | h) | ⟨m, hm, h⟩)
      · exact Or.inl h
      · exact Or.inr ⟨a, List.mem_cons_self _ _, h⟩
      · exact Or.inr ⟨m, List.mem_cons_of_mem _ hm, h⟩
    · rintro (h | ⟨m, hm, h⟩)
      · exact Or.inl (Or.inl h)
      · rcases List.mem_cons.mp hm with rfl | hm2
        · exact Or.inl (Or.inr h)
        · exact Or.inr ⟨m, hm2, h⟩

theorem mem_childrenOfFrontier {blocks : Reg} {frontier : List String} {c : String} :
    c ∈ childrenOfFrontier blocks frontier ↔
      ∃ m ∈ frontier, c ∈ childrenOfReg blocks m := by
  unfold childrenOfFrontier
  rw [mem_childrenOfFrontier_aux]
  simp

/-- The selection only grows during the downward closure. -/
theorem closeDown_subset (blocks : Reg) (fuel : Nat) :
    ∀ (sel frontier out : List String),
      closeDown blocks fuel sel frontier = some out → ∀ x ∈ sel, x ∈ out := by
  induction fuel with
  | zero =>
    intro sel frontier out h x hx
    unfold closeDown at h
    split at h
    · cases h; exact hx
    · cases h
  | succ fuel ih =>
    intro sel frontier out h x hx
    unfold closeDown at h
    split at h
    · cases h; exact hx
    · exact ih _ _ _ h x (mem_foldl_insertUnique.mpr (Or.inl hx))

/-- A drained downward closure is closed under children edges. -/
theorem closeDown_closed (blocks : Reg) (fuel : Nat) :
    ∀ (sel frontier out : List String),
      (∀ x ∈ frontier, x ∈ sel) →
      (∀ m ∈ sel, ¬ m ∈ frontier → ∀ c ∈ childrenOfReg blocks m, c ∈ sel) →
      closeDown blocks fuel sel frontier = some out →
      ∀ m ∈ out, ∀ c ∈ childrenOfReg blocks m, c ∈ out := by
  induction fuel with
  | zero =>
    intro sel frontier out hfs hcl h
    unfold closeDown at h
    split at h
    · cases h
      rename_i hfr
      intro m hm c hc
      refine hcl m hm ?_ c hc
      rw [List.isEmpty_iff.mp hfr]
      exact List.not_mem_nil m
    · cases h
  | succ fuel ih =>
    intro sel frontier out hfs hcl h
    unfold closeDown at h
    split at h
    · cases h
      rename_i hfr
      intro m hm c hc
      refine hcl m hm ?_ c hc
      rw [List.isEmpty_iff.mp hfr]
      exact List.not_mem_nil m
    · refine ih _ _ _ ?_ ?_ h
      · intro x hx
        exact mem_foldl_insertUnique.mpr (Or.inr hx)
      · intro m hm hmn c hc
        rcases mem_foldl_insertUnique.mp hm with hm2 | hm2
        · by_cases hmf : m ∈ frontier
          · refine mem_foldl_insertUnique.mpr (Or.inr ?_)
            exact mem_childrenOfFrontier.mpr ⟨m, hmf, hc⟩
          · exact mem_foldl_insertUnique.mpr (Or.inl (hcl m hm2 hmf c hc))
        · exact absurd hm2 hmn

/-- Everything a drained downward closure selects is child-reachable
from the selection it started from. -/
theorem closeDown_reach (blocks : Reg) (base : List String) (fuel : Nat) :
    ∀ (sel frontier out : List String),
      (∀ x ∈ sel, ChildReach blocks base x) →
      (∀ x ∈ frontier, ChildReach blocks base x) →
      closeDown blocks fuel sel frontier = some out →
      ∀ x ∈ out, ChildReach blocks base x := by
  induction fuel with
  | zero =>
    intro sel frontier out hs hf h
    unfold closeDown at h
    split at h
    · cases h; exact hs
    · cases h
  | succ fuel ih =>
    intro sel frontier out hs hf h
    unfold closeDown at h
    split at h
    · cases h; exact hs
    · refine ih _ _ _ ?_ ?_ h
      · intro x hx
        rcases mem_foldl_insertUnique.mp hx with h2 | h2
        · exact hs x h2
        · obtain ⟨m, hm, hc⟩ := mem_childrenOfFrontier.mp h2
          exact ChildReach.step (hf m hm) hc
      · intro x hx
        obtain ⟨m, hm, hc⟩ := mem_childrenOfFrontier.mp hx
        exact ChildReach.step (hf m hm) hc

/-! ## C4: downward closure of the requested set -/

/-- C4: with an explicit nonempty `--rerun` request and no `--no-deps`,
`resolve_dependencies_down` (i) replaces every family-level dependency
name by one edge per concrete family member (non-family dependencies
survive unchanged), (ii) registers every block as a child of each of
its (expanded) dependencies, and (iii) closes the requested set
downward to a fixed point over the children relation: the result is
exactly the set of blocks child-reachable from the request — so for a
chain A → B → C, requesting A yields {A, B, C}. -/
theorem downward_closure_spec (instances : Instances) (blocks : Reg)
    (sel sel2 : List String) (reg1 : Reg) (names : List String) (fuel : Nat)
    (hns : ¬ names.isEmpty)
    (hfam : ∀ F mems, instances.lookup F = some mems →
      ∀ m ∈ mems, instances.lookup m = none)
    (hnodupDeps : ∀ p ∈ blocks, p.2.dependencies.Nodup)
    (hdepsReg : depsRegistered (expandRegistry instances blocks))
    (hrun : resolve_dependencies_down instances (some names) false fuel blocks sel
      = some (reg1, sel2)) :
    (∀ lbl b0 b1, blocks.lookup lbl = some b0 → reg1.lookup lbl = some b1 →
      ∀ D, D ∈ b1.dependencies ↔
        ((D ∈ b0.dependencies ∧ instances.lookup D = none) ∨
         (∃ F mems, F ∈ b0.dependencies ∧ instances.lookup F = some mems ∧ D ∈ mems))) ∧
    (∀ lbl b1, reg1.lookup lbl = some b1 → ∀ D ∈ b1.dependencies,
      ∃ bd, reg1.lookup D = some bd ∧ lbl ∈ bd.children) ∧
    (∀ n, n ∈ sel2 ↔ ChildReach reg1 sel n) := by
  unfold resolve_dependencies_down at hrun
  dsimp only at hrun
  rw [if_neg (by simpa using hns), if_neg (fun h => Bool.noConfusion h)] at hrun
  rcases hcd : closeDown (registerChildren (expandRegistry instances blocks)) fuel sel sel
    with _ | out
  · rw [hcd] at hrun
    cases hrun
  · rw [hcd] at hrun
    injection hrun with hpair
    injection hpair with hreg hsel
    subst hreg
    subst hsel
    refine ⟨?_, ?_, ?_⟩
    · intro lbl b0 b1 hb0 hb1 D
      have hdeps := (registerChildren_preserves (expandRegistry instances blocks) lbl).1
      rw [hb1, lookup_expandRegistry, hb0] at hdeps
      have hdeps2 : b1.dependencies = expandDeps instances b0.dependencies := by
        simpa using hdeps
      rw [hdeps2]
      exact expandDeps_mem instances b0.dependencies
        (hnodupDeps (lbl, b0) (lookup_mem hb0)) hfam D
    · intro lbl b1 hb1 D hD
      have hsome : ((expandRegistry instances blocks).lookup lbl).isSome = true := by
        rw [← (registerChildren_preserves (expandRegistry instances blocks) lbl).2.2, hb1]
        rfl
      obtain ⟨b2, hb2⟩ := Option.isSome_iff_exists.mp hsome
      have hdeq : b1.dependencies = b2.dependencies := by
        have h3 := (registerChildren_preserves (expandRegistry instances blocks) lbl).1
        rw [hb1, hb2] at h3
        simpa using h3
      exact registerChildren_establishes (expandRegistry instances blocks) hdepsReg lbl b2 hb2 D
        (by rw [← hdeq]; exact hD)
    · intro n
      constructor
      · intro hn
        exact closeDown_reach _ sel fuel sel sel out
          (fun x hx => ChildReach.base hx) (fun x hx => ChildReach.base hx) hcd n hn
      · intro hr
        induction hr with
        | base h => exact closeDown_subset _ fuel sel sel out hcd _ h
        | step hm hc ihm =>
          exact closeDown_closed _ fuel sel sel out (fun x hx => hx)
            (fun m hm hmn c hc => absurd hm hmn) hcd _ ihm _ hc

/-- Witness for `downward_closure_spec`: the chain A → B → C with
`--rerun A` requested.  The closure yields {A, B, C}. -/
theorem downward_closure_spec_witness :
    (¬ (["A"] : List String).isEmpty = true) ∧
    resolve_dependencies_down [] (some ["A"]) false 5 chainReg0 ["A"]
      = some (chainReg, ["A", "B", "C"]) ∧
    ((∀ lbl b0 b1, chainReg0.lookup lbl = some b0 → chainReg.lookup lbl = some b1 →
      ∀ D, D ∈ b1.dependencies ↔
        ((D ∈ b0.dependencies ∧ ([] : Instances).lookup D = none) ∨
         (∃ F mems, F ∈ b0.dependencies ∧ ([] : Instances).lookup F = some mems ∧
           D ∈ mems))) ∧
    (∀ lbl b1, chainReg.lookup lbl = some b1 → ∀ D ∈ b1.dependencies,
      ∃ bd, chainReg.lookup D = some bd ∧ lbl ∈ bd.children) ∧
    (∀ n, n ∈ (["A", "B", "C"] : List String) ↔ ChildReach chainReg ["A"] n)) ∧
    "B" ∈ (["A", "B", "C"] : List String) ∧ "C" ∈ (["A", "B", "C"] : List String) := by
  refine ⟨by decide, rfl, ?_, by decide, by decide⟩
  exact downward_closure_spec [] chainReg0 ["A"] ["A", "B", "C"] chainReg ["A"] 5
    (by decide) (fun F mems h => Option.noConfusion h) (by decide)
    (by unfold depsRegistered; decide) rfl

/-! ## Upward closure -/

/-- Registry component after the inner dependency fold of one
upward-closure iteration: exactly the dependencies lying on disk are
marked complete. -/
theorem upInner_fst (disk : List String) :
    ∀ (ds : List String) (acc : Reg × List String) (m : String),
      ((ds.foldl (fun acc d =>
          if d ∈ disk then (setComplete acc.1 d, acc.2)
          else (acc.1, insertUnique acc.2 d)) acc).1).lookup m =
        if m ∈ ds ∧ m ∈ disk then (acc.1.lookup m).map markComplete
        else acc.1.lookup m := by
  intro ds
  induction ds with
  | nil =>
    intro acc m
    simp
  | cons d rest ih =>
    intro acc m
    rw [List.foldl_cons]
    by_cases hd : d ∈ disk
    · rw [if_pos hd, ih]
      dsimp only
      rw [lookup_setComplete]
      simp only [List.mem_cons]
      by_cases hmd : m = d
      · subst hmd
        split_ifs <;>
          first
          | rfl
          | (cases acc.1.lookup m <;> rfl)
          | tauto
      · split_ifs <;>
          first
          | rfl
          | (cases acc.1.lookup m <;> rfl)
          | tauto
    · rw [if_neg hd, ih]
      dsimp only
      simp only [List.mem_cons]
      by_cases hmd : m = d
      · subst hmd
        split_ifs <;>
          first
          | rfl
          | (cases acc.1.lookup m <;> rfl)
          | tauto
      · split_ifs <;>
          first
          | rfl
          | (cases acc.1.lookup m <;> rfl)
          | tauto

/-- Frontier component after the inner dependency fold: exactly the
dependencies not on disk are appended. -/
theorem upInner_snd (disk : List String) :
    ∀ (ds : List String) (acc : Reg × List String) (x : String),
      x ∈ ((ds.foldl (fun acc d =>
          if d ∈ disk then (setComplete acc.1 d, acc.2)
          else (acc.1, insertUnique acc.2 d)) acc).2) ↔
        (x ∈ acc.2 ∨ (x ∈ ds ∧ ¬ x ∈ disk)) := by
  intro ds
  induction ds with
  | nil =>
    intro acc x
    simp
  | cons d rest ih =>
    intro acc x
    rw [List.foldl_cons]
    by_cases hd : d ∈ disk
    · rw [if_pos hd, ih]
      dsimp only
      simp only [List.mem_cons]
      by_cases hxd : x = d
      · subst hxd
        tauto
      · tauto
    · rw [if_neg hd, ih]
      dsimp only
      simp only [List.mem_cons, mem_insertUnique]
      by_cases hxd : x = d
      · subst hxd
        tauto
      · tauto

/-- Dependencies are stable through the inner fold. -/
theorem upInner_deps (disk : List String) (ds : List String) (acc : Reg × List String)
    (m : String) :
    (((ds.foldl (fun acc d =>
        if d ∈ disk then (setComplete acc.1 d, acc.2)
        else (acc.1, insertUnique acc.2 d)) acc).1).lookup m).map Block.dependencies =
      ((acc.1.lookup m).map Block.dependencies) := by
  rw [upInner_fst]
  split
  · cases acc.1.lookup m <;> rfl
  · rfl

/-- `depsOfReg` is stable through the inner fold. -/
theorem upInner_depsOfReg (disk : List String) (ds : List String) (acc : Reg × List String)
    (l : String) :
    depsOfReg ((ds.foldl (fun acc d =>
        if d ∈ disk then (setComplete acc.1 d, acc.2)
        else (acc.1, insertUnique acc.2 d)) acc).1) l = depsOfReg acc.1 l := by
  unfold depsOfReg
  rw [upInner_deps]

/-- Outer characterization of one upward-closure iteration
(`upStepFrontier`): generalized over the accumulator. -/
theorem upOuter (disk : List String) :
    ∀ (frontier : List String) (acc : Reg × List String),
      (∀ m, ((frontier.foldl (fun acc l =>
          (((acc.1.lookup l).map Block.dependencies).getD []).foldl (fun acc d =>
            if d ∈ disk then (setComplete acc.1 d, acc.2)
            else (acc.1, insertUnique acc.2 d)) acc) acc).1).lookup m =
        if (∃ l ∈ frontier, m ∈ depsOfReg acc.1 l) ∧ m ∈ disk then
          (acc.1.lookup m).map markComplete
        else acc.1.lookup m) ∧
      (∀ x, x ∈ ((frontier.foldl (fun acc l =>
          (((acc.1.lookup l).map Block.dependencies).getD []).foldl (fun acc d =>
            if d ∈ disk then (setComplete acc.1 d, acc.2)
            else (acc.1, insertUnique acc.2 d)) acc) acc).2) ↔
        (x ∈ acc.2 ∨ ∃ l ∈ frontier, x ∈ depsOfReg acc.1 l ∧ ¬ x ∈ disk)) := by
  intro frontier
  induction frontier with
  | nil =>
    intro acc
    constructor
    · intro m
      simp
    · intro x
      simp
  | cons l rest ih =>
    intro acc
    have hstep : ∀ (acc : Reg × List String),
        (depsOfReg acc.1 l).foldl (fun acc d =>
          if d ∈ disk then (setComplete acc.1 d, acc.2)
          else (acc.1, insertUnique acc.2 d)) acc =
        ((((acc.1.lookup l).map Block.dependencies).getD []).foldl (fun acc d =>
          if d ∈ disk then (setComplete acc.1 d, acc.2)
          else (acc.1, insertUnique acc.2 d)) acc) := fun _ => rfl
    constructor
    · intro m
      rw [List.foldl_cons, (ih _).1 m]
      rw [← hstep acc]
      have hcond : ((∃ y ∈ rest, m ∈ depsOfReg ((depsOfReg acc.1 l).foldl (fun acc d =>
            if d ∈ disk then (setComplete acc.1 d, acc.2)
            else (acc.1, insertUnique acc.2 d)) acc).1 y) ∧ m ∈ disk) ↔
          ((∃ y ∈ rest, m ∈ depsOfReg acc.1 y) ∧ m ∈ disk) := by
        apply and_congr _ Iff.rfl
        constructor
        · rintro ⟨y, hy, hm⟩
          rw [upInner_depsOfReg disk] at hm
          exact ⟨y, hy, hm⟩
        · rintro ⟨y, hy, hm⟩
          refine ⟨y, hy, ?_⟩
          rw [upInner_depsOfReg disk]
          exact hm
      rw [if_congr hcond rfl rfl]
      rw [upInner_fst disk _ acc m]
      by_cases hmdisk : m ∈ disk
      · by_cases hml : m ∈ depsOfReg acc.1 l
        · rw [if_pos (show m ∈ depsOfReg acc.1 l ∧ m ∈ disk from ⟨hml, hmdisk⟩)]
          rw [if_pos (show (∃ y ∈ l :: rest, m ∈ depsOfReg acc.1 y) ∧ m ∈ disk from
            ⟨⟨l, List.mem_cons_self l rest, hml⟩, hmdisk⟩)]
          by_cases hrest : ∃ y ∈ rest, m ∈ depsOfReg acc.1 y
          · rw [if_pos (show (∃ y ∈ rest, m ∈ depsOfReg acc.1 y) ∧ m ∈ disk from
              ⟨hrest, hmdisk⟩)]
            cases acc.1.lookup m <;> rfl
          · rw [if_neg (show ¬((∃ y ∈ rest, m ∈ depsOfReg acc.1 y) ∧ m ∈ disk) from
              fun hc => hrest hc.1)]
        · rw [if_neg (show ¬(m ∈ depsOfReg acc.1 l ∧ m ∈ disk) from fun hc => hml hc.1)]
          by_cases hrest : ∃ y ∈ rest, m ∈ depsOfReg acc.1 y
          · rw [if_pos (show (∃ y ∈ rest, m ∈ depsOfReg acc.1 y) ∧ m ∈ disk from
              ⟨hrest, hmdisk⟩)]
            obtain ⟨y, hy, hm⟩ := hrest
            rw [if_pos (show (∃ y ∈ l :: rest, m ∈ depsOfReg acc.1 y) ∧ m ∈ disk from
              ⟨⟨y, List.mem_cons_of_mem l hy, hm⟩, hmdisk⟩)]
          · rw [if_neg (show ¬((∃ y ∈ rest, m ∈ depsOfReg acc.1 y) ∧ m ∈ disk) from
                fun hc => hrest hc.1),
              if_neg (show ¬((∃ y ∈ l :: rest, m ∈ depsOfReg acc.1 y) ∧ m ∈ disk) by
                rintro ⟨⟨y, hy, hm⟩, -⟩
                rcases List.mem_cons.mp hy with rfl | hy2
                · exact hml hm
                · exact hrest ⟨y, hy2, hm⟩)]
      · rw [if_neg (show ¬(m ∈ depsOfReg acc.1 l ∧ m ∈ disk) from fun hc => hmdisk hc.2),
          if_neg (show ¬((∃ y ∈ rest, m ∈ depsOfReg acc.1 y) ∧ m ∈ disk) from
            fun hc => hmdisk hc.2),
          if_neg (show ¬((∃ y ∈ l :: rest, m ∈ depsOfReg acc.1 y) ∧ m ∈ disk) from
            fun hc => hmdisk hc.2)]
    · intro x
      rw [List.foldl_cons, (ih _).2 x]
      rw [← hstep acc]
      rw [upInner_snd disk _ acc x]
      simp only [List.mem_cons]
      constructor
      · rintro ((h | ⟨h1, h2⟩) | ⟨y, hy, hm, hnd⟩)
        · exact Or.inl h
        · exact Or.inr ⟨l, Or.inl rfl, h1, h2⟩
        · rw [upInner_depsOfReg disk] at hm
          exact Or.inr ⟨y, Or.inr hy, hm, hnd⟩
      · rintro (h | ⟨y, (rfl | hy), hm, hnd⟩)
        · exact Or.inl (Or.inl h)
        · exact Or.inl (Or.inr ⟨hm, hnd⟩)
        · refine Or.inr ⟨y, hy, ?_, hnd⟩
          rw [upInner_depsOfReg disk]
          exact hm

theorem upStepFrontier_fst (disk : List String) (reg : Reg) (frontier : List String)
    (m : String) :
    (upStepFrontier disk reg frontier).1.lookup m =
      if (∃ l ∈ frontier, m ∈ depsOfReg reg l) ∧ m ∈ disk then
        (reg.lookup m).map markComplete
      else reg.lookup m := by
  unfold upStepFrontier
  exact (upOuter disk frontier (reg, [])).1 m

theorem upStepFrontier_snd (disk : List String) (reg : Reg) (frontier : List String)
    (x : String) :
    x ∈ (upStepFrontier disk reg frontier).2 ↔
      ∃ l ∈ frontier, x ∈ depsOfReg reg l ∧ ¬ x ∈ disk := by
  unfold upStepFrontier
  have h := (upOuter disk frontier (reg, [])).2 x
  simpa using h

theorem upStep_depsOfReg (disk : List String) (reg : Reg) (frontier : List String)
    (l : String) :
    depsOfReg (upStepFrontier disk reg frontier).1 l = depsOfReg reg l := by
  unfold depsOfReg
  rw [upStepFrontier_fst]
  split
  · cases reg.lookup l <;> rfl
  · rfl

theorem upStep_isSome (disk : List String) (reg : Reg) (frontier : List String)
    (m : String) :
    ((upStepFrontier disk reg frontier).1.lookup m).isSome = (reg.lookup m).isSome := by
  rw [upStepFrontier_fst]
  split
  · cases reg.lookup m <;> rfl
  · rfl

theorem upStep_complete_mono (disk : List String) (reg : Reg) (frontier : List String)
    {m : String} {b : Block} (hb : reg.lookup m = some b) (hc : b.complete = true) :
    ∃ b', (upStepFrontier disk reg frontier).1.lookup m = some b' ∧ b'.complete = true := by
  rw [upStepFrontier_fst]
  split
  · rw [hb]
    exact ⟨markComplete b, rfl, rfl⟩
  · exact ⟨b, hb, hc⟩

theorem upStep_marks (disk : List String) (reg : Reg) (frontier : List String)
    {l d : String} (hl : l ∈ frontier) (hd : d ∈ depsOfReg reg l) (hdisk : d ∈ disk)
    (hsome : (reg.lookup d).isSome = true) :
    ∃ b', (upStepFrontier disk reg frontier).1.lookup d = some b' ∧ b'.complete = true := by
  rw [upStepFrontier_fst, if_pos (And.intro ⟨l, hl, hd⟩ hdisk)]
  obtain ⟨b, hb⟩ := Option.isSome_iff_exists.mp hsome
  rw [hb]
  exact ⟨markComplete b, rfl, rfl⟩

/-- Master invariant theorem for the upward-closure loop, generalized
over the evolving registry and frontier.  `reg0`/`sel0` are the values
at the start of `resolve_dependencies_up`. -/
theorem closeUp_spec (disk : List String) (reg0 : Reg) (sel0 : List String) (fuel : Nat) :
    ∀ (reg : Reg) (sel frontier : List String) (reg' : Reg) (sel' : List String),
      closeUp disk fuel reg sel frontier = some (reg', sel') →
      (∀ x ∈ frontier, x ∈ sel) →
      (∀ x ∈ sel, ¬ x ∈ disk) →
      (∀ m, depsOfReg reg m = depsOfReg reg0 m) →
      (∀ m d, d ∈ depsOfReg reg0 m → (reg.lookup d).isSome = true) →
      (∀ x ∈ sel, DepReach reg0 disk sel0 x) →
      (∀ m ∈ sel, ¬ m ∈ frontier → ∀ d ∈ depsOfReg reg0 m,
        (d ∈ disk → ∃ b, reg.lookup d = some b ∧ b.complete = true) ∧
        (¬ d ∈ disk → d ∈ sel)) →
      (∀ x ∈ sel, x ∈ sel') ∧
      (∀ x ∈ sel', ¬ x ∈ disk) ∧
      (∀ m, depsOfReg reg' m = depsOfReg reg0 m) ∧
      (∀ m b, reg.lookup m = some b → b.complete = true →
        ∃ b', reg'.lookup m = some b' ∧ b'.complete = true) ∧
      (∀ m ∈ sel', ∀ d ∈ depsOfReg reg0 m,
        (d ∈ disk → ∃ b, reg'.lookup d = some b ∧ b.complete = true) ∧
        (¬ d ∈ disk → d ∈ sel')) ∧
      (∀ x ∈ sel', DepReach reg0 disk sel0 x) := by
  induction fuel with
  | zero =>
    intro reg sel frontier reg' sel' h hfs hsd hd0 hwf hreach hhandled
    unfold closeUp at h
    split at h
    · rename_i hfr
      injection h with hpair
      injection hpair with hr hs
      subst hr
      subst hs
      refine ⟨fun x hx => hx, hsd, hd0, fun m b hb hc => ⟨b, hb, hc⟩, ?_, hreach⟩
      intro m hm d hd
      exact hhandled m hm (by rw [List.isEmpty_iff.mp hfr]; exact List.not_mem_nil m) d hd
    · cases h
  | succ fuel ih =>
    intro reg sel frontier reg' sel' h hfs hsd hd0 hwf hreach hhandled
    unfold closeUp at h
    split at h
    · rename_i hfr
      injection h with hpair
      injection hpair with hr hs
      subst hr
      subst hs
      refine ⟨fun x hx => hx, hsd, hd0, fun m b hb hc => ⟨b, hb, hc⟩, ?_, hreach⟩
      intro m hm d hd
      exact hhandled m hm (by rw [List.isEmpty_iff.mp hfr]; exact List.not_mem_nil m) d hd
    · obtain ⟨c1, c2, c3, c4, c5, c6⟩ := ih (upStepFrontier disk reg frontier).1
        ((upStepFrontier disk reg frontier).2.foldl insertUnique sel)
        (upStepFrontier disk reg frontier).2 reg' sel' h
        (fun x hx => mem_foldl_insertUnique.mpr (Or.inr hx))
        (by
          intro x hx
          rcases mem_foldl_insertUnique.mp hx with h2 | h2
          · exact hsd x h2
          · exact ((upStepFrontier_snd disk reg frontier x).mp h2).choose_spec.2.2)
        (fun m => (upStep_depsOfReg disk reg frontier m).trans (hd0 m))
        (fun m d hd => by rw [upStep_isSome]; exact hwf m d hd)
        (by
          intro x hx
          rcases mem_foldl_insertUnique.mp hx with h2 | h2
          · exact hreach x h2
          · obtain ⟨l, hl, hmem, hnd⟩ := (upStepFrontier_snd disk reg frontier x).mp h2
            refine DepReach.step (hreach l (hfs l hl)) ?_ hnd
            rw [← hd0 l]
            exact hmem)
        (by
          intro m hm hmf d hd
          rcases mem_foldl_insertUnique.mp hm with h2 | h2
          · by_cases hmfr : m ∈ frontier
            · constructor
              · intro hdd
                refine upStep_marks disk reg frontier hmfr ?_ hdd (hwf m d hd)
                rw [hd0 m]
                exact hd
              · intro hdd
                refine mem_foldl_insertUnique.mpr (Or.inr ?_)
                refine (upStepFrontier_snd disk reg frontier d).mpr ⟨m, hmfr, ?_, hdd⟩
                rw [hd0 m]
                exact hd
            · obtain ⟨hmark, hsel⟩ := hhandled m h2 hmfr d hd
              constructor
              · intro hdd
                obtain ⟨b, hb, hc⟩ := hmark hdd
                exact upStep_complete_mono disk reg frontier hb hc
              · intro hdd
                exact mem_foldl_insertUnique.mpr (Or.inl (hsel hdd))
          · exact absurd h2 hmf)
      refine ⟨?_, c2, c3, ?_, c5, c6⟩
      · intro x hx
        exact c1 x (mem_foldl_insertUnique.mpr (Or.inl hx))
      · intro m b hb hc
        obtain ⟨b', hb', hc'⟩ := upStep_complete_mono disk reg frontier hb hc
        exact c4 m b' hb' hc'

/-! ## C5: upward closure -/

/-- C5 counterexample: in the chain A → B → C with A's and B's targets
on disk, `resolve_dependencies_up` starting from {C} marks only B
complete — A, which is a dependency of B but not of any block in the
execution set, keeps `complete = false`, contradicting the claim that
the chain run "marks A and B complete". -/
theorem upward_closure_chain_counterexample :
    (resolve_dependencies_up ["A", "B"] 4 chainReg ["C"]).map
      (fun rs => (((rs.1.lookup "A").map Block.complete),
                  ((rs.1.lookup "B").map Block.complete), rs.2))
      = some (some false, some true, ["C"]) := by rfl

/-- C5 as the code implements it: upward closure runs to a fixed point;
the result set is exactly the blocks reachable from the selection along
dependency edges through missing targets (so every dependency of a
selected block whose target is absent is added, recursively); every
dependency OF A BLOCK IN THE CLOSED SET whose target exists is marked
`complete = True` and is not in the executed set (targets on disk are
never executed); dependency lists are unchanged.  Dependencies of
blocks outside the closed set — such as A in the chain — are not
touched. -/
theorem upward_closure_spec (disk : List String) (fuel : Nat) (reg reg' : Reg)
    (sel sel' : List String)
    (hsd : ∀ x ∈ sel, ¬ x ∈ disk)
    (hwf : ∀ m d, d ∈ depsOfReg reg m → (reg.lookup d).isSome = true)
    (h : resolve_dependencies_up disk fuel reg sel = some (reg', sel')) :
    (∀ n, n ∈ sel' ↔ DepReach reg disk sel n) ∧
    (∀ m ∈ sel', ∀ d ∈ depsOfReg reg m,
      (d ∈ disk → ∃ b, reg'.lookup d = some b ∧ b.complete = true) ∧
      (¬ d ∈ disk → d ∈ sel')) ∧
    (∀ d ∈ disk, ¬ d ∈ sel') ∧
    (∀ m, depsOfReg reg' m = depsOfReg reg m) := by
  unfold resolve_dependencies_up at h
  obtain ⟨c1, c2, c3, c4, c5, c6⟩ := closeUp_spec disk reg sel fuel reg sel sel reg' sel' h
    (fun x hx => hx) hsd (fun m => rfl) hwf (fun x hx => DepReach.base hx)
    (fun m hm hmf _ _ => absurd hm hmf)
  refine ⟨?_, c5, fun d hd hds => c2 d hds hd, c3⟩
  intro n
  constructor
  · exact c6 n
  · intro hr
    induction hr with
    | base h2 => exact c1 _ h2
    | step hm hd hnd ihm => exact ((c5 _ ihm _ hd).2) hnd

/-- Witness for `upward_closure_spec`: the chain scenario (A's and B's
targets exist, C selected) — only C runs, B is marked complete. -/
theorem upward_closure_spec_witness :
    (∀ x ∈ (["C"] : List String), ¬ x ∈ (["A", "B"] : List String)) ∧
    (∀ m d, d ∈ depsOfReg chainReg m → (chainReg.lookup d).isSome = true) ∧
    resolve_dependencies_up ["A", "B"] 4 chainReg ["C"] = some
      ([("A", ⟨[], ["B"], false⟩), ("B", ⟨["A"], ["C"], true⟩), ("C", ⟨["B"], [], false⟩)],
       ["C"]) ∧
    ((∀ n, n ∈ (["C"] : List String) ↔ DepReach chainReg ["A", "B"] ["C"] n) ∧
    (∀ m ∈ (["C"] : List String), ∀ d ∈ depsOfReg chainReg m,
      (d ∈ (["A", "B"] : List String) →
        ∃ b, (([("A", ⟨[], ["B"], false⟩), ("B", ⟨["A"], ["C"], true⟩),
              ("C", ⟨["B"], [], false⟩)] : Reg)).lookup d = some b ∧ b.complete = true) ∧
      (¬ d ∈ (["A", "B"] : List String) → d ∈ (["C"] : List String))) ∧
    (∀ d ∈ (["A", "B"] : List String), ¬ d ∈ (["C"] : List String)) ∧
    (∀ m, depsOfReg ([("A", ⟨[], ["B"], false⟩), ("B", ⟨["A"], ["C"], true⟩),
        ("C", ⟨["B"], [], false⟩)] : Reg) m = depsOfReg chainReg m)) := by
  refine ⟨by decide, ?_, rfl, ?_⟩
  · intro m d hd
    revert hd
    unfold depsOfReg chainReg
    rcases hm : List.lookup m
        [("A", (⟨[], ["B"], false⟩ : Block)), ("B", ⟨["A"], ["C"], false⟩),
         ("C", ⟨["B"], [], false⟩)] with _ | b
    · intro hd
      cases hd
    · intro hd
      have hmem := lookup_mem hm
      fin_cases hmem <;> simp_all
  · exact upward_closure_spec ["A", "B"] 4 chainReg _ ["C"] _ (by decide)
      (by
        intro m d hd
        revert hd
        unfold depsOfReg chainReg
        rcases hm : List.lookup m
            [("A", (⟨[], ["B"], false⟩ : Block)), ("B", ⟨["A"], ["C"], false⟩),
             ("C", ⟨["B"], [], false⟩)] with _ | b
        · intro hd
          cases hd
        · intro hd
          have hmem := lookup_mem hm
          fin_cases hmem <;> simp_all)
      rfl

/-! ## C3: default selection and idempotence -/

theorem lookup_isSome_iff_mem_keys (l : Reg) (k : String) :
    ((l.lookup k).isSome = true) ↔ k ∈ l.map Prod.fst := by
  induction l with
  | nil => simp
  | cons p rest ih =>
    obtain ⟨k1, b1⟩ := p
    rcases hbe : k == k1 with _ | _
    · have hne : ¬ (k = k1) := by simpa using hbe
      simp [List.lookup, hbe, ih, hne]
    · have heq : k = k1 := by simpa using hbe
      simp [List.lookup, hbe, heq]

theorem mem_select_none (blocks : Reg) (disk : List String) (n : String) :
    (n ∈ (blocks.filter (fun p => ¬ p.1 ∈ disk)).map (fun p => p.1)) ↔
      (n ∈ blocks.map Prod.fst ∧ ¬ n ∈ disk) := by
  simp only [List.mem_map, List.mem_filter]
  constructor
  · rintro ⟨p, ⟨hp, hnd⟩, rfl⟩
    exact ⟨⟨p, hp, rfl⟩, by simpa using hnd⟩
  · rintro ⟨⟨p, hp, rfl⟩, hnd⟩
    exact ⟨p, ⟨hp, by simpa using hnd⟩, rfl⟩

theorem closeUp_nil (disk : List String) (fuel : Nat) (reg : Reg) (sel : List String) :
    closeUp disk fuel reg sel [] = some (reg, sel) := by
  cases fuel <;> rfl

theorem runPool_nil (raises writes : String → Bool) (sched : Nat → String → Bool)
    (fuel t : Nat) (bs : Reg) (k : Nat) (lg : List (String × Reg))
    (cl dk : List String) :
    runPool raises writes sched fuel t
      { blocks := bs, remaining := [], results := [], numExceptions := k,
        submitLog := lg, collected := cl, disk := dk } =
      some { blocks := bs, remaining := [], results := [], numExceptions := k,
             submitLog := lg, collected := cl, disk := dk } := by
  cases fuel <;> rfl

/-- A run whose selection comes out empty: nothing conflicts, the
closures are trivial and the pool loop drains immediately — the run
executes nothing and leaves the disk untouched. -/
theorem runPipeline_select_nil (instances : Instances) (noDeps force approve : Bool)
    (raises writes : String → Bool) (sched : Nat → String → Bool)
    (fuelDown fuelUp fuelPool : Nat) (blocks : Reg) (disk : List String)
    (hsel : selectBlocks blocks instances disk none = some []) :
    runPipeline instances none [] noDeps force approve raises writes sched
      fuelDown fuelUp fuelPool blocks disk =
      some { aborted := false, executed := [], numExceptions := 0,
             blocks := registerChildren (expandRegistry instances blocks),
             diskAtDispatch := disk, disk := disk } := by
  have how : overwrite force approve [] disk = (true, disk) := by
    unfold overwrite
    simp
  have hup : resolve_dependencies_up disk fuelUp
      (registerChildren (expandRegistry instances blocks)) [] =
      some (registerChildren (expandRegistry instances blocks), []) :=
    closeUp_nil disk fuelUp (registerChildren (expandRegistry instances blocks)) []
  unfold runPipeline
  split
  · rename_i heq
    rw [hsel] at heq
    cases heq
  · rename_i sel0 heq
    rw [hsel] at heq
    injection heq with heq1
    subst heq1
    split
    · rename_i heq2
      rw [show applyExclude blocks instances [] [] = some [] from rfl] at heq2
      cases heq2
    · rename_i sel1 heq2
      rw [show applyExclude blocks instances [] [] = some [] from rfl] at heq2
      injection heq2 with heq3
      subst heq3
      split
      · rename_i heq4
        rw [show resolve_dependencies_down instances none noDeps fuelDown blocks [] =
          some (registerChildren (expandRegistry instances blocks), []) from rfl] at heq4
        cases heq4
      · rename_i rs heq4
        rw [show resolve_dependencies_down instances none noDeps fuelDown blocks [] =
          some (registerChildren (expandRegistry instances blocks), []) from rfl] at heq4
        injection heq4 with heq5
        subst heq5
        dsimp only
        rw [how]
        rw [if_neg (show ¬ ¬ (((true, disk) : Bool × List String).1 = true) from by simp)]
        dsimp only
        split
        · rename_i heq6
          rw [hup] at heq6
          cases heq6
        · rename_i rs2 heq6
          rw [hup] at heq6
          injection heq6 with heq7
          subst heq7
          dsimp only
          split
          · rename_i heq8
            rw [runPool_nil raises writes sched fuelPool 0
              (registerChildren (expandRegistry instances blocks)) 0 [] [] disk] at heq8
            cases heq8
          · rename_i ps heq8
            rw [runPool_nil raises writes sched fuelPool 0
              (registerChildren (expandRegistry instances blocks)) 0 [] [] disk] at heq8
            injection heq8 with heq9
            subst heq9
            rfl

/-- C3: a run with no `--rerun` and no `--exclude` (over a registry
whose dependencies are all registered, when every execution writes its
target) never aborts, executes exactly the registered blocks whose
target does not exist on disk, and a second identical run on the
resulting directory executes zero blocks. -/
theorem default_selection_idempotence (instances : Instances)
    (noDeps force approve : Bool) (raises writes : String → Bool)
    (sched : Nat → String → Bool) (fuelDown fuelUp fuelPool : Nat)
    (blocks : Reg) (disk : List String) (r : RunResult)
    (hwf : depsRegistered (registerChildren (expandRegistry instances blocks)))
    (hw : ∀ n, writes n = true)
    (hrun : runPipeline instances none [] noDeps force approve raises writes sched
      fuelDown fuelUp fuelPool blocks disk = some r) :
    r.aborted = false ∧
    (∀ n, n ∈ r.executed ↔ (n ∈ blocks.map Prod.fst ∧ ¬ n ∈ disk)) ∧
    runPipeline instances none [] noDeps force approve raises writes sched
      fuelDown fuelUp fuelPool blocks r.disk =
      some { aborted := false, executed := [], numExceptions := 0,
             blocks := registerChildren (expandRegistry instances blocks),
             diskAtDispatch := r.disk, disk := r.disk } := by
  have hkeys : ∀ d, ((registerChildren (expandRegistry instances blocks)).lookup d).isSome
      = (blocks.lookup d).isSome := by
    intro d
    rw [(registerChildren_preserves (expandRegistry instances blocks) d).2.2,
        lookup_expandRegistry]
    cases blocks.lookup d <;> rfl
  have hwf2 : ∀ m d, d ∈ depsOfReg (registerChildren (expandRegistry instances blocks)) m →
      ((registerChildren (expandRegistry instances blocks)).lookup d).isSome = true := by
    intro m d hd
    unfold depsOfReg at hd
    rcases hm : (registerChildren (expandRegistry instances blocks)).lookup m with _ | b
    · rw [hm] at hd
      exact absurd hd (List.not_mem_nil d)
    · rw [hm] at hd
      exact hwf (m, b) (lookup_mem hm) d hd
  have hsd : ∀ x ∈ (blocks.filter (fun p => ¬ p.1 ∈ disk)).map (fun p => p.1),
      ¬ x ∈ disk := fun x hx => ((mem_select_none blocks disk x).mp hx).2
  unfold runPipeline at hrun
  split at hrun
  · cases hrun
  · rename_i sel0 heq1
    rw [show selectBlocks blocks instances disk none =
      some ((blocks.filter (fun p => ¬ p.1 ∈ disk)).map (fun p => p.1)) from rfl] at heq1
    injection heq1 with heq1a
    subst heq1a
    split at hrun
    · cases hrun
    · rename_i sel1 heq2
      rw [show applyExclude blocks instances []
          ((blocks.filter (fun p => ¬ p.1 ∈ disk)).map (fun p => p.1)) =
        some ((blocks.filter (fun p => ¬ p.1 ∈ disk)).map (fun p => p.1)) from rfl] at heq2
      injection heq2 with heq2a
      subst heq2a
      split at hrun
      · cases hrun
      · rename_i rs heq3
        rw [show resolve_dependencies_down instances none noDeps fuelDown blocks
            ((blocks.filter (fun p => ¬ p.1 ∈ disk)).map (fun p => p.1)) =
          some (registerChildren (expandRegistry instances blocks),
            (blocks.filter (fun p => ¬ p.1 ∈ disk)).map (fun p => p.1)) from rfl] at heq3
        injection heq3 with heq3a
        subst heq3a
        dsimp only at hrun
        have how : overwrite force approve
            ((blocks.filter (fun p => ¬ p.1 ∈ disk)).map (fun p => p.1)) disk =
            (true, disk) := by
          unfold overwrite
          have hnil : ((blocks.filter (fun p => ¬ p.1 ∈ disk)).map (fun p => p.1)).filter
              (fun t => t ∈ disk) = [] := by
            rw [List.filter_eq_nil_iff]
            intro t ht
            simp [hsd t ht]
          rw [hnil]
          simp
        rw [how] at hrun
        rw [if_neg (show ¬ ¬ (((true, disk) : Bool × List String).1 = true)
          from by simp)] at hrun
        dsimp only at hrun
        split at hrun
        · cases hrun
        · rename_i rs2 heq4
          split at hrun
          · cases hrun
          · rename_i ps heq5
            injection hrun with hr
            subst hr
            obtain ⟨u1, u2, u3, u4⟩ := upward_closure_spec disk fuelUp
              (registerChildren (expandRegistry instances blocks)) rs2.1
              ((blocks.filter (fun p => ¬ p.1 ∈ disk)).map (fun p => p.1)) rs2.2
              hsd hwf2 heq4
            have hreach : ∀ n,
                DepReach (registerChildren (expandRegistry instances blocks)) disk
                  ((blocks.filter (fun p => ¬ p.1 ∈ disk)).map (fun p => p.1)) n →
                n ∈ (blocks.filter (fun p => ¬ p.1 ∈ disk)).map (fun p => p.1) := by
              intro n h
              induction h with
              | base h2 => exact h2
              | step hm hd hnd ih =>
                refine (mem_select_none blocks disk _).mpr ⟨?_, hnd⟩
                rw [← lookup_isSome_iff_mem_keys, ← hkeys]
                exact hwf2 _ _ hd
            obtain ⟨c1, c2, c3, c4, c5, c6, c7, c8⟩ := runPool_spec raises writes sched
              fuelPool 0 _ ps heq5
              (by intro p hp; exact absurd hp (List.not_mem_nil p))
              (by intro n hn; exact absurd hn (List.not_mem_nil n))
              (by rintro n ⟨h2 | h2, -⟩ <;> exact absurd h2 (List.not_mem_nil n))
            refine ⟨rfl, ?_, ?_⟩
            · intro n
              constructor
              · intro h2
                rcases (c3 n).mp h2 with h3 | h3 | h3
                · exact (mem_select_none blocks disk n).mp (hreach n ((u1 n).mp h3))
                · exact absurd h3 (List.not_mem_nil n)
                · exact absurd h3 (List.not_mem_nil n)
              · intro h2
                refine (c3 n).mpr (Or.inl ?_)
                exact (u1 n).mpr (DepReach.base ((mem_select_none blocks disk n).mpr h2))
            · have hall : ∀ p ∈ blocks, p.1 ∈ ps.disk := by
                intro p hp
                by_cases hd : p.1 ∈ disk
                · exact c7 p.1 hd
                · refine c8 p.1 ⟨?_, hw p.1⟩
                  refine (c3 p.1).mpr (Or.inl ?_)
                  exact (u1 p.1).mpr (DepReach.base ((mem_select_none blocks disk p.1).mpr
                    ⟨List.mem_map.mpr ⟨p, hp, rfl⟩, hd⟩))
              have hfil : blocks.filter (fun p => ¬ p.1 ∈ ps.disk) = [] := by
                rw [List.filter_eq_nil_iff]
                intro p hp
                simp [hall p hp]
              refine runPipeline_select_nil instances noDeps force approve raises writes
                sched fuelDown fuelUp fuelPool blocks ps.disk ?_
              show some ((blocks.filter (fun p => ¬ p.1 ∈ ps.disk)).map (fun p => p.1)) =
                some []
              rw [hfil]
              rfl

/-- Witness for `default_selection_idempotence`: two blocks `a`, `b`
(`b` depends on `a`) on an empty disk — both run, and the second run
executes nothing. -/
theorem default_selection_idempotence_witness :
    depsRegistered (registerChildren (expandRegistry [] depReg)) ∧
    (∀ n : String, (fun _ : String => true) n = true) ∧
    runPipeline [] none [] false false false (fun _ => false) (fun _ => true)
      (fun _ _ => true) 4 4 6 depReg [] = some c3run ∧
    (c3run.aborted = false ∧
     (∀ n, n ∈ c3run.executed ↔ (n ∈ depReg.map Prod.fst ∧ ¬ n ∈ ([] : List String))) ∧
     runPipeline [] none [] false false false (fun _ => false) (fun _ => true)
       (fun _ _ => true) 4 4 6 depReg c3run.disk =
       some { aborted := false, executed := [], numExceptions := 0,
              blocks := registerChildren (expandRegistry [] depReg),
              diskAtDispatch := c3run.disk, disk := c3run.disk }) := by
  refine ⟨?_, fun n => rfl, ?_, ?_⟩
  · unfold depsRegistered
    decide
  · rfl
  · exact default_selection_idempotence [] false false false (fun _ => false)
      (fun _ => true) (fun _ _ => true) 4 4 6 depReg [] c3run
      (by unfold depsRegistered; decide) (fun n => rfl) rfl

/-! ## C7: overwrite confirmation -/

/-- C7: with the selection, exclusion and downward resolution stages
fixed, (i) declining the overwrite confirmation when conflicts exist
(and `--force` is unset) aborts the run with nothing executed and the
disk unchanged; (ii) approving (or `--force`) reports success and
removes exactly the selected targets that exist on disk; (iii) every
non-aborted run dispatches from the post-removal disk, which only ever
grows afterwards — so the removal happens before any block is
dispatched. -/
theorem overwrite_confirmation_spec (instances : Instances)
    (rerun : Option (List String)) (exclude : List String) (noDeps : Bool)
    (raises writes : String → Bool) (sched : Nat → String → Bool)
    (fuelDown fuelUp fuelPool : Nat) (blocks : Reg) (disk : List String)
    (sel0 sel1 : List String) (rs : Reg × List String)
    (hsel : selectBlocks blocks instances disk rerun = some sel0)
    (hexc : applyExclude blocks instances exclude sel0 = some sel1)
    (hdown : resolve_dependencies_down instances rerun noDeps fuelDown blocks sel1 =
      some rs) :
    (¬ (rs.2.filter (fun t => t ∈ disk)).isEmpty = true →
      runPipeline instances rerun exclude noDeps false false raises writes sched
        fuelDown fuelUp fuelPool blocks disk =
      some { aborted := true, executed := [], numExceptions := 0, blocks := rs.1,
             diskAtDispatch := disk, disk := disk }) ∧
    (∀ force approve : Bool, (force = true ∨ approve = true) →
      (overwrite force approve rs.2 disk).1 = true ∧
      ∀ f, f ∈ (overwrite force approve rs.2 disk).2 ↔ (f ∈ disk ∧ ¬ f ∈ rs.2)) ∧
    (∀ (force approve : Bool) (r : RunResult),
      runPipeline instances rerun exclude noDeps force approve raises writes sched
        fuelDown fuelUp fuelPool blocks disk = some r →
      r.aborted = false →
      (r.diskAtDispatch = (overwrite force approve rs.2 disk).2 ∧
       ∀ f ∈ r.diskAtDispatch, f ∈ r.disk)) := by
  refine ⟨?_, ?_, ?_⟩
  · intro hconf
    have how : overwrite false false rs.2 disk = (false, disk) := by
      unfold overwrite
      dsimp only
      split
      · rfl
      · rename_i hcond
        exact absurd ⟨hconf, by simp, by simp⟩ hcond
    unfold runPipeline
    split
    · rename_i heq
      rw [hsel] at heq
      cases heq
    · rename_i s0 heq
      rw [hsel] at heq
      injection heq with h1
      subst h1
      split
      · rename_i heq2
        rw [hexc] at heq2
        cases heq2
      · rename_i s1 heq2
        rw [hexc] at heq2
        injection heq2 with h1
        subst h1
        split
        · rename_i heq3
          rw [hdown] at heq3
          cases heq3
        · rename_i rs' heq3
          rw [hdown] at heq3
          injection heq3 with h1
          subst h1
          dsimp only
          rw [how]
          rw [if_pos (show ¬ (((false, disk) : Bool × List String).1 = true)
            from by simp)]
  · intro force approve hfa
    have hcond : ¬ (¬ ((rs.2.filter (fun t => t ∈ disk)).isEmpty = true) ∧
        ¬ (force = true) ∧ ¬ (approve = true)) := by
      rcases hfa with h | h <;> simp [h]
    have how : overwrite force approve rs.2 disk =
        (true, disk.filter (fun f => ¬ f ∈ rs.2.filter (fun t => t ∈ disk))) := by
      unfold overwrite
      dsimp only
      split
      · rename_i hc
        exact absurd hc hcond
      · rfl
    refine ⟨by rw [how], ?_⟩
    intro f
    rw [how]
    constructor
    · intro hf
      rcases List.mem_filter.mp hf with ⟨h1, h2⟩
      rw [decide_eq_true_eq] at h2
      exact ⟨h1, fun hfr => h2 (List.mem_filter.mpr ⟨hfr, decide_eq_true h1⟩)⟩
    · rintro ⟨hfd, hfr⟩
      refine List.mem_filter.mpr ⟨hfd, ?_⟩
      rw [decide_eq_true_eq]
      intro hmem
      exact hfr (List.mem_filter.mp hmem).1
  · intro force approve r hrun hab
    unfold runPipeline at hrun
    split at hrun
    · cases hrun
    · rename_i s0 heq
      rw [hsel] at heq
      injection heq with h1
      subst h1
      split at hrun
      · cases hrun
      · rename_i s1 heq2
        rw [hexc] at heq2
        injection heq2 with h1
        subst h1
        split at hrun
        · cases hrun
        · rename_i rs' heq3
          rw [hdown] at heq3
          injection heq3 with h1
          subst h1
          dsimp only at hrun
          split at hrun
          · injection hrun with h2
            subst h2
            exact Bool.noConfusion hab
          · split at hrun
            · cases hrun
            · rename_i rs2 heq4
              split at hrun
              · cases hrun
              · rename_i ps heq5
                injection hrun with h2
                subst h2
                obtain ⟨c1, c2, c3, c4, c5, c6, c7, c8⟩ := runPool_spec raises writes
                  sched fuelPool 0 _ ps heq5
                  (by intro p hp; exact absurd hp (List.not_mem_nil p))
                  (by intro n hn; exact absurd hn (List.not_mem_nil n))
                  (by rintro n ⟨h2 | h2, -⟩ <;> exact absurd h2 (List.not_mem_nil n))
                exact ⟨rfl, fun f hf => c7 f hf⟩

/-- Witness for `overwrite_confirmation_spec`: `--rerun a b --no-deps`
over `depReg` with `a`'s target on disk — one conflict. -/
theorem overwrite_confirmation_spec_witness :
    selectBlocks depReg [] ["a"] (some ["a", "b"]) = some ["a", "b"] ∧
    applyExclude depReg [] [] ["a", "b"] = some ["a", "b"] ∧
    resolve_dependencies_down [] (some ["a", "b"]) true 4 depReg ["a", "b"] =
      some c7down ∧
    ((¬ (c7down.2.filter (fun t => t ∈ (["a"] : List String))).isEmpty = true →
      runPipeline [] (some ["a", "b"]) [] true false false (fun _ => false)
        (fun _ => true) (fun _ _ => true) 4 4 6 depReg ["a"] =
      some { aborted := true, executed := [], numExceptions := 0, blocks := c7down.1,
             diskAtDispatch := ["a"], disk := ["a"] }) ∧
    (∀ force approve : Bool, (force = true ∨ approve = true) →
      (overwrite force approve c7down.2 ["a"]).1 = true ∧
      ∀ f, f ∈ (overwrite force approve c7down.2 ["a"]).2 ↔
        (f ∈ (["a"] : List String) ∧ ¬ f ∈ c7down.2)) ∧
    (∀ (force approve : Bool) (r : RunResult),
      runPipeline [] (some ["a", "b"]) [] true force approve (fun _ => false)
        (fun _ => true) (fun _ _ => true) 4 4 6 depReg ["a"] = some r →
      r.aborted = false →
      (r.diskAtDispatch = (overwrite force approve c7down.2 ["a"]).2 ∧
       ∀ f ∈ r.diskAtDispatch, f ∈ r.disk))) := by
  refine ⟨rfl, rfl, rfl, ?_⟩
  exact overwrite_confirmation_spec [] (some ["a", "b"]) [] true (fun _ => false)
    (fun _ => true) (fun _ _ => true) 4 4 6 depReg ["a"] ["a", "b"] ["a", "b"] c7down
    rfl rfl rfl

end Numpipe
